import Mathlib

/-!
# The `stv` lexer: embedding and verified properties

Shallow embedding of `src/lexer/lexercode/code.cpp` (the `Lexer` class and the
token loop of `main`), followed by the properties proved about it.

Modelling conventions.

* A C++ `char` is represented by the Lean `Char` with the same code; a
  `std::string` is a `List Char`.  The theorems quantify over every `List Char`,
  so in particular over every byte string.
* `std::isalpha`, `std::isdigit`, `std::isalnum` and `std::isspace` are the
  `<cctype>` classifiers in the default "C" locale (the program never calls
  `setlocale`): ASCII letters, ASCII digits, their union, and the six characters
  space, `\t`, `\n`, `\v`, `\f`, `\r`.
* `size_t pos` is a natural number: it never exceeds the input length.
* The `int` fields `line` and `column` (of `Lexer` and of `Token`) are integers
  kept in the 32-bit two's-complement range by `wrapInt`: `line++` and
  `column++` at `INT_MAX` give `INT_MIN`, which is what the compiled program
  does (for C++ the overflow is undefined).  By `counters_exact` no increment
  overflows on an input shorter than `2^31 - 1` characters.
* Each `while` loop is a structurally recursive function on a fuel argument that
  the caller sets to `source.size() - pos`.  By `scanWhile_spec` and
  `guard_false_after_run` this fuel is never exhausted before the loop guard
  becomes false, so the functions below compute exactly what the loops do.
-/

namespace Stv

/-! ## Character classification (`<cctype>`, "C" locale) -/

/-- `std::isalpha`: `A`..`Z` or `a`..`z`. -/
def isalpha (c : Char) : Bool :=
  (65 ≤ c.toNat && c.toNat ≤ 90) || (97 ≤ c.toNat && c.toNat ≤ 122)

/-- `std::isdigit`: `0`..`9`. -/
def isdigit (c : Char) : Bool :=
  48 ≤ c.toNat && c.toNat ≤ 57

/-- `std::isalnum`: `isalpha` or `isdigit`. -/
def isalnum (c : Char) : Bool :=
  isalpha c || isdigit c

/-- `std::isspace`: space, or one of `\t \n \v \f \r` (codes 9 to 13). -/
def isspace (c : Char) : Bool :=
  c.toNat = 32 || (9 ≤ c.toNat && c.toNat ≤ 13)

/-! ## Machine integers -/

/-- The value of a 32-bit two's-complement `int` holding `x`: `x` itself when
`-2^31 ≤ x < 2^31`, and `x` reduced modulo `2^32` into that range otherwise. -/
def wrapInt (x : Int) : Int :=
  (x + 2147483648) % 4294967296 - 2147483648

/-! ## Tokens -/

/-- `enum class TokenType`. -/
inductive TokenType where
  | Let
  | Identifier
  | Number
  | Plus
  | Equal
  | Semicolon
  | EndOfFile
  | Unknown
  deriving DecidableEq, Repr

/-- `struct Token`. -/
structure Token where
  type : TokenType
  value : List Char
  line : Int
  column : Int
  deriving DecidableEq, Repr

/-! ## The lexer -/

/-- The fields of `class Lexer`. -/
structure Lexer where
  source : List Char
  pos : Nat
  line : Int
  column : Int
  deriving DecidableEq, Repr

namespace Lexer

/-- The constructor `Lexer(const std::string &input)`: `pos = 0`, `line = 1`,
`column = 1`. -/
def new (input : List Char) : Lexer :=
  { source := input, pos := 0, line := 1, column := 1 }

/-- `isAtEnd`: `pos >= source.size()`. -/
def isAtEnd (l : Lexer) : Bool :=
  decide (l.source.length ≤ l.pos)

/-- `peek`: `isAtEnd() ? '\0' : source[pos]`. -/
def peek (l : Lexer) : Char :=
  if l.isAtEnd then Char.ofNat 0 else l.source.getD l.pos (Char.ofNat 0)

/-- `advance`: reads `peek()`, increments `pos`, then either starts a new line
(`line++; column = 1`) or increments `column`; returns the character read and
the new state.  The increments are those of `int`. -/
def advance (l : Lexer) : Char × Lexer :=
  let c := l.peek
  if c = '\n' then
    (c, { l with pos := l.pos + 1, line := wrapInt (l.line + 1), column := 1 })
  else
    (c, { l with pos := l.pos + 1, column := wrapInt (l.column + 1) })

/-- The loop of `skipWhitespace`, on a fuel argument. -/
def skipWhitespaceLoop : Nat → Lexer → Lexer
  | 0, l => l
  | n + 1, l =>
    if !l.isAtEnd && isspace l.peek then
      skipWhitespaceLoop n l.advance.2
    else
      l

/-- `skipWhitespace`. -/
def skipWhitespace (l : Lexer) : Lexer :=
  skipWhitespaceLoop (l.source.length - l.pos) l

/-- The loop of `identifier`, on a fuel argument; `value` is the accumulated
text. -/
def identifierLoop : Nat → Lexer → List Char → List Char × Lexer
  | 0, l, value => (value, l)
  | n + 1, l, value =>
    if !l.isAtEnd && (isalnum l.peek || l.peek = '_') then
      identifierLoop n l.advance.2 (value ++ [l.advance.1])
    else
      (value, l)

/-- `identifier`: `startCol` is taken before the loop, `line` is read after
it. -/
def identifier (l : Lexer) : Token × Lexer :=
  let startCol := l.column
  let r := identifierLoop (l.source.length - l.pos) l []
  if r.1 = ['l', 'e', 't'] then
    ({ type := TokenType.Let, value := r.1, line := r.2.line, column := startCol }, r.2)
  else
    ({ type := TokenType.Identifier, value := r.1, line := r.2.line, column := startCol }, r.2)

/-- The loop of `number`, on a fuel argument. -/
def numberLoop : Nat → Lexer → List Char → List Char × Lexer
  | 0, l, value => (value, l)
  | n + 1, l, value =>
    if !l.isAtEnd && isdigit l.peek then
      numberLoop n l.advance.2 (value ++ [l.advance.1])
    else
      (value, l)

/-- `number`. -/
def number (l : Lexer) : Token × Lexer :=
  let startCol := l.column
  let r := numberLoop (l.source.length - l.pos) l []
  ({ type := TokenType.Number, value := r.1, line := r.2.line, column := startCol }, r.2)

/-- `nextToken`.  In the `switch`, `advance()` runs before the token is built,
so the token's `line` is the one after the character has been consumed. -/
def nextToken (l : Lexer) : Token × Lexer :=
  let l1 := l.skipWhitespace
  if l1.isAtEnd then
    ({ type := TokenType.EndOfFile, value := [], line := l1.line, column := l1.column }, l1)
  else
    let c := l1.peek
    if isalpha c then
      l1.identifier
    else if isdigit c then
      l1.number
    else
      let currentCol := l1.column
      if c = '+' then
        let l2 := l1.advance.2
        ({ type := TokenType.Plus, value := ['+'], line := l2.line, column := currentCol }, l2)
      else if c = '=' then
        let l2 := l1.advance.2
        ({ type := TokenType.Equal, value := ['='], line := l2.line, column := currentCol }, l2)
      else if c = ';' then
        let l2 := l1.advance.2
        ({ type := TokenType.Semicolon, value := [';'], line := l2.line, column := currentCol }, l2)
      else
        let l2 := l1.advance.2
        ({ type := TokenType.Unknown, value := [c], line := l2.line, column := currentCol }, l2)

end Lexer

/-! ## Driving the lexer -/

/-- The state reached from `l` by `n` calls of `nextToken`. -/
def callsFrom (l : Lexer) : Nat → Lexer
  | 0 => l
  | n + 1 => (callsFrom l n).nextToken.2

/-- The state of a fresh lexer on `src` after `n` calls of `nextToken`. -/
def lexerAfter (src : List Char) (n : Nat) : Lexer :=
  callsFrom (Lexer.new src) n

/-- The token returned by call number `n` (counting from `0`) on a fresh lexer. -/
def tokenAt (src : List Char) (n : Nat) : Token :=
  (lexerAfter src n).nextToken.1

/-- The token loop of `main`: starting from the token `tok` just read, collect
the tokens that are printed, until `EndOfFile` is seen.  `none` when the fuel
is used up before that. -/
def tokenLoop : Nat → Lexer → Token → Option (List Token)
  | 0, _, _ => none
  | n + 1, l, tok =>
    if tok.type ≠ TokenType.EndOfFile then
      (tokenLoop n l.nextToken.2 l.nextToken.1).map (tok :: ·)
    else
      some []

/-- The tokens `main` prints for the file contents `code`. -/
def mainTokens (fuel : Nat) (code : List Char) : Option (List Token) :=
  let lexer := Lexer.new code
  tokenLoop fuel lexer.nextToken.2 lexer.nextToken.1

/-- The scanner states reachable from the initial state on `src` by repeated
`nextToken` calls. -/
inductive Reachable (src : List Char) : Lexer → Prop where
  | init : Reachable src (Lexer.new src)
  | step {l : Lexer} : Reachable src l → Reachable src l.nextToken.2

/-! ## Specification vocabulary -/

/-- Line of offset `k`: one plus the number of `'\n'` in `src[0..k)`. -/
def lineAt (src : List Char) (k : Nat) : Nat :=
  1 + (src.take k).count '\n'

/-- The offset just after the last `'\n'` in `src[0..k)`, `0` if there is none. -/
def lineStart (src : List Char) : Nat → Nat
  | 0 => 0
  | k + 1 => if src[k]? = some '\n' then k + 1 else lineStart src k

/-- The number of characters of `cs` after its last `'\n'` (all of them when it
has none). -/
def charsAfterLastNewline (cs : List Char) : Nat :=
  (cs.reverse.takeWhile (fun c => c ≠ '\n')).length

/-- Column of offset `k`: one plus the number of characters of `src[0..k)` after
its last `'\n'`. -/
def columnAt (src : List Char) (k : Nat) : Nat :=
  1 + charsAfterLastNewline (src.take k)

/-- `s` is the offset of the first non-whitespace character at or after `pos`,
or the length of `src` when there is none. -/
def FirstNonSpaceAt (src : List Char) (pos s : Nat) : Prop :=
  pos ≤ s ∧ s ≤ src.length ∧
    (∀ c ∈ (src.take s).drop pos, isspace c = true) ∧
    (∀ c ∈ src[s]?, isspace c = false)

instance (src : List Char) (pos s : Nat) : Decidable (FirstNonSpaceAt src pos s) := by
  unfold FirstNonSpaceAt
  infer_instance

/-- The line/column invariant of a scanner state, for `int` counters: `line` is
the `int` value of one plus the number of newlines in `source[0..pos)`, and
`column` the `int` value of `1 + (pos - p)` with `p` the offset just after the
last newline in `source[0..pos)`. -/
def PosInv (l : Lexer) : Prop :=
  l.line = wrapInt (1 + ((l.source.take l.pos).count '\n' : Nat)) ∧
    l.column = wrapInt (1 + ((l.pos - lineStart l.source l.pos : Nat) : Int))

/-- The characters allowed inside an identifier run. -/
def isIdentChar (c : Char) : Bool :=
  isalnum c || c = '_'

/-- The input made of `n` times the character `c`. -/
@[irreducible]
def runOf (n : Nat) (c : Char) : List Char :=
  List.replicate n c

/-- The input made of `n` newlines followed by the character `c`. -/
@[irreducible]
def newlinesThen (n : Nat) (c : Char) : List Char :=
  List.replicate n '\n' ++ [c]

/-! ## Proof vocabulary -/

/-- The unread part of the source, `source[pos..]`. -/
def rest (l : Lexer) : List Char :=
  l.source.drop l.pos

/-- The state after `k` executions of `advance`. -/
def advanceN : Nat → Lexer → Lexer
  | 0, l => l
  | k + 1, l => advanceN k l.advance.2

/-- The `int` value after `k` increments of `x`. -/
def incN : Nat → Int → Int
  | 0, x => x
  | k + 1, x => incN k (wrapInt (x + 1))

/-- The common shape of the three loops: while not at the end and `p (peek ())`,
append `advance ()` to the accumulated text. -/
def scanWhile (p : Char → Bool) : Nat → Lexer → List Char → List Char × Lexer
  | 0, l, value => (value, l)
  | n + 1, l, value =>
    if !l.isAtEnd && p l.peek then
      scanWhile p n l.advance.2 (value ++ [l.advance.1])
    else
      (value, l)

/-- The kind and the text of the token that starts the unread input `xs`, as
`nextToken` computes them once `skipWhitespace` has run: a function of the
unread input alone. -/
def tokenOf : List Char → TokenType × List Char
  | [] => (TokenType.EndOfFile, [])
  | c :: cs =>
    if isalpha c then
      (if (c :: cs).takeWhile isIdentChar = ['l', 'e', 't'] then TokenType.Let
       else TokenType.Identifier,
       (c :: cs).takeWhile isIdentChar)
    else if isdigit c then
      (TokenType.Number, (c :: cs).takeWhile isdigit)
    else
      (if c = '+' then TokenType.Plus else if c = '=' then TokenType.Equal
       else if c = ';' then TokenType.Semicolon else TokenType.Unknown,
       [c])

open Lexer

/-! ## Facts about `int` arithmetic -/

theorem wrapInt_wrapInt_add (a b : Int) : wrapInt (wrapInt a + b) = wrapInt (a + b) := by
  unfold wrapInt
  omega

theorem wrapInt_of_range {x : Int} (h1 : -2147483648 ≤ x) (h2 : x < 2147483648) :
    wrapInt x = x := by
  unfold wrapInt
  omega

theorem wrapInt_range (x : Int) : -2147483648 ≤ wrapInt x ∧ wrapInt x < 2147483648 := by
  unfold wrapInt
  omega

theorem wrapInt_one : wrapInt 1 = 1 := by decide

theorem incN_wrapInt (k : Nat) (x : Int) : incN k (wrapInt x) = wrapInt (x + k) := by
  induction k generalizing x with
  | zero => simp [incN]
  | succ k ih =>
    rw [incN, wrapInt_wrapInt_add, ih]
    congr 1
    push_cast
    omega

theorem incN_one (k : Nat) : incN k 1 = wrapInt (1 + k) := by
  rw [← wrapInt_one, incN_wrapInt, wrapInt_one]

/-! ## Facts about the classifiers -/

theorem isspace_of_newline : isspace '\n' = true := by decide

theorem isalpha_not_isspace {c : Char} (h : isalpha c = true) : isspace c = false := by
  simp only [isalpha, isspace, Bool.or_eq_true, Bool.and_eq_true, decide_eq_true_eq,
    Bool.or_eq_false_iff, Bool.and_eq_false_iff, decide_eq_false_iff_not] at *
  omega

theorem isdigit_not_isspace {c : Char} (h : isdigit c = true) : isspace c = false := by
  simp only [isdigit, isspace, Bool.or_eq_true, Bool.and_eq_true, decide_eq_true_eq,
    Bool.or_eq_false_iff, Bool.and_eq_false_iff, decide_eq_false_iff_not] at *
  omega

theorem isalpha_not_isdigit {c : Char} (h : isalpha c = true) : isdigit c = false := by
  simp only [isalpha, isdigit, Bool.or_eq_true, Bool.and_eq_true, decide_eq_true_eq,
    Bool.or_eq_false_iff, Bool.and_eq_false_iff, decide_eq_false_iff_not] at *
  omega

theorem ne_newline_of_not_isspace {c : Char} (h : isspace c = false) : c ≠ '\n' := by
  rintro rfl
  exact absurd h (by decide)

theorem isIdentChar_not_isspace {c : Char} (h : isIdentChar c = true) : isspace c = false := by
  simp only [isIdentChar, isalnum, Bool.or_eq_true, decide_eq_true_eq] at h
  rcases h with (h | h) | h
  · exact isalpha_not_isspace h
  · exact isdigit_not_isspace h
  · subst h; decide

theorem isIdentChar_of_isalpha {c : Char} (h : isalpha c = true) : isIdentChar c = true := by
  simp [isIdentChar, isalnum, h]

/-! ## The unread input -/

theorem advance_source (l : Lexer) : l.advance.2.source = l.source := by
  simp only [advance]; split <;> rfl

theorem advance_pos (l : Lexer) : l.advance.2.pos = l.pos + 1 := by
  simp only [advance]; split <;> rfl

theorem advance_fst (l : Lexer) : l.advance.1 = l.peek := by
  simp only [advance]; split <;> rfl

theorem rest_nil {l : Lexer} (h : rest l = []) : l.isAtEnd = true := by
  simpa [rest, isAtEnd] using h

theorem rest_cons {l : Lexer} {c : Char} {cs : List Char} (h : rest l = c :: cs) :
    l.isAtEnd = false ∧ l.peek = c ∧ rest l.advance.2 = cs ∧ l.source[l.pos]? = some c ∧
      l.pos < l.source.length := by
  have hlt : l.pos < l.source.length := by
    by_contra hge
    have : rest l = [] := by simp [rest]; omega
    simp [this] at h
  have hget : l.source[l.pos]? = some c := by
    have := congrArg (fun xs => xs[0]?) h
    simpa [rest, List.getElem?_drop] using this
  have hend : l.isAtEnd = false := by simp [isAtEnd, hlt]
  refine ⟨hend, ?_, ?_, hget, hlt⟩
  · simp [peek, hend, List.getD, hget]
  · have := congrArg List.tail h
    simpa [rest, advance_source, advance_pos, List.tail_drop] using this

theorem isAtEnd_iff_rest (l : Lexer) : l.isAtEnd = true ↔ rest l = [] := by
  constructor
  · intro h; simpa [rest, isAtEnd] using h
  · exact rest_nil

/-! ## Repeated `advance` -/

theorem advanceN_source (k : Nat) (l : Lexer) : (advanceN k l).source = l.source := by
  induction k generalizing l with
  | zero => rfl
  | succ k ih => simp [advanceN, ih, advance_source]

theorem advanceN_pos (k : Nat) (l : Lexer) : (advanceN k l).pos = l.pos + k := by
  induction k generalizing l with
  | zero => rfl
  | succ k ih => simp [advanceN, ih, advance_pos]; omega

theorem advanceN_add (j k : Nat) (l : Lexer) :
    advanceN (j + k) l = advanceN k (advanceN j l) := by
  induction j generalizing l with
  | zero => simp [advanceN]
  | succ j ih => rw [Nat.succ_add]; simp [advanceN, ih]

theorem rest_advanceN (k : Nat) (l : Lexer) : rest (advanceN k l) = (rest l).drop k := by
  simp [rest, advanceN_source, advanceN_pos, List.drop_drop]

/-- Consuming characters none of which is a newline keeps the line and moves the
column by their number. -/
theorem advanceN_no_newline (k : Nat) (l : Lexer) (hk : k ≤ (rest l).length)
    (h : ∀ c ∈ (rest l).take k, c ≠ '\n') :
    (advanceN k l).line = l.line ∧ (advanceN k l).column = incN k l.column := by
  induction k generalizing l with
  | zero => simp [advanceN, incN]
  | succ k ih =>
    match hr : rest l with
    | [] => simp [hr] at hk
    | c :: cs =>
      obtain ⟨-, hpeek, hrest, -, -⟩ := rest_cons hr
      rw [hr] at hk h
      have hc : c ≠ '\n' := h c (by simp)
      have := ih l.advance.2 (by rw [hrest]; simpa using hk)
        (by rw [hrest]; intro d hd; exact h d (by simp [hd]))
      have hl : l.advance.2.line = l.line ∧
          l.advance.2.column = wrapInt (l.column + 1) := by
        simp [advance, hpeek, hc]
      simp only [advanceN, incN]
      rw [this.1, this.2, hl.1, hl.2]
      exact ⟨rfl, rfl⟩

/-! ## The loops -/

theorem scanWhile_spec (p : Char → Bool) (n : Nat) (l : Lexer) (value : List Char)
    (hn : (rest l).length ≤ n) :
    scanWhile p n l value =
      (value ++ (rest l).takeWhile p, advanceN ((rest l).takeWhile p).length l) := by
  induction n generalizing l value with
  | zero =>
    have : rest l = [] := List.length_eq_zero.mp (Nat.le_zero.mp hn)
    simp [scanWhile, this, advanceN]
  | succ n ih =>
    match hr : rest l with
    | [] => simp [scanWhile, rest_nil hr, advanceN]
    | c :: cs =>
      obtain ⟨hend, hpeek, hrest, -, -⟩ := rest_cons hr
      rw [hr] at hn
      by_cases hp : p c = true
      · have := ih l.advance.2 (value ++ [l.advance.1]) (by rw [hrest]; simpa using hn)
        rw [hrest, advance_fst, hpeek] at this
        simp [scanWhile, hend, hpeek, hp, this, advance_fst, advanceN]
      · simp [scanWhile, hend, hpeek, hp, advanceN]

theorem skipWhitespaceLoop_eq (n : Nat) (l : Lexer) (value : List Char) :
    skipWhitespaceLoop n l = (scanWhile isspace n l value).2 := by
  induction n generalizing l value with
  | zero => rfl
  | succ n ih =>
    simp only [skipWhitespaceLoop, scanWhile]
    split
    · exact ih _ _
    · rfl

theorem identifierLoop_eq (n : Nat) (l : Lexer) (value : List Char) :
    identifierLoop n l value = scanWhile isIdentChar n l value := by
  induction n generalizing l value with
  | zero => rfl
  | succ n ih =>
    simp only [identifierLoop, scanWhile, isIdentChar]
    split
    · exact ih _ _
    · rfl

theorem numberLoop_eq (n : Nat) (l : Lexer) (value : List Char) :
    numberLoop n l value = scanWhile isdigit n l value := by
  induction n generalizing l value with
  | zero => rfl
  | succ n ih =>
    simp only [numberLoop, scanWhile]
    split
    · exact ih _ _
    · rfl

theorem rest_length (l : Lexer) : (rest l).length = l.source.length - l.pos := by
  simp [rest]

theorem skipWhitespace_eq (l : Lexer) :
    l.skipWhitespace = advanceN ((rest l).takeWhile isspace).length l := by
  rw [skipWhitespace, skipWhitespaceLoop_eq _ _ [], scanWhile_spec _ _ _ _ (rest_length l).le]

theorem drop_length_takeWhile (p : Char → Bool) (xs : List Char) :
    xs.drop (xs.takeWhile p).length = xs.dropWhile p := by
  induction xs with
  | nil => rfl
  | cons x xs ih =>
    by_cases hx : p x = true
    · simp [List.takeWhile_cons, List.dropWhile_cons, hx, ih]
    · simp [List.takeWhile_cons, List.dropWhile_cons, hx]

theorem rest_skipWhitespace (l : Lexer) :
    rest l.skipWhitespace = (rest l).dropWhile isspace := by
  rw [skipWhitespace_eq, rest_advanceN]
  exact drop_length_takeWhile _ _

/-! ## The line/column invariant -/

theorem lineStart_le (src : List Char) (k : Nat) : lineStart src k ≤ k := by
  induction k with
  | zero => simp [lineStart]
  | succ k ih =>
    simp only [lineStart]
    split <;> omega

theorem charsAfterLastNewline_take (src : List Char) (k : Nat) (hk : k ≤ src.length) :
    charsAfterLastNewline (src.take k) = k - lineStart src k := by
  induction k with
  | zero => simp [charsAfterLastNewline, lineStart]
  | succ k ih =>
    have hlt : k < src.length := hk
    have hget : src[k]? = some src[k] := List.getElem?_eq_getElem hlt
    have ih := ih hlt.le
    have hle := lineStart_le src k
    have hls : lineStart src (k + 1) = if src[k] = '\n' then k + 1 else lineStart src k := by
      simp [lineStart, hget]
    have hch : charsAfterLastNewline (src.take (k + 1)) =
        if src[k] = '\n' then 0 else charsAfterLastNewline (src.take k) + 1 := by
      have hrev : (src.take (k + 1)).reverse = src[k] :: (src.take k).reverse := by
        rw [List.take_succ, hget, List.reverse_append]
        rfl
      unfold charsAfterLastNewline
      rw [hrev]
      by_cases hc : src[k] = '\n'
      · simp [hc, List.takeWhile_cons]
      · simp [hc, List.takeWhile_cons]
    rw [hls, hch]
    split <;> omega

theorem posInv_new (src : List Char) : PosInv (Lexer.new src) := by
  simp [PosInv, Lexer.new, lineStart, wrapInt_one]

theorem posInv_advance (l : Lexer) (h : PosInv l) : PosInv l.advance.2 := by
  obtain ⟨hline, hcol⟩ := h
  have hle := lineStart_le l.source l.pos
  match hr : rest l with
  | [] =>
    have hend := rest_nil hr
    have hlen : l.source.length ≤ l.pos := by simpa [isAtEnd] using hend
    have hpeek : l.peek ≠ '\n' := by simp [peek, hend]
    have hnone : l.source[l.pos]? = none := List.getElem?_eq_none hlen
    have htake : l.source.take (l.pos + 1) = l.source.take l.pos := by
      rw [List.take_of_length_le (by omega), List.take_of_length_le hlen]
    have hls : lineStart l.source (l.pos + 1) = lineStart l.source l.pos := by
      simp [lineStart, hnone]
    have hcast : ((l.pos + 1 - lineStart l.source l.pos : Nat) : Int) =
        ((l.pos - lineStart l.source l.pos : Nat) : Int) + 1 := by omega
    simp only [PosInv, advance, hpeek, if_false, htake, hls]
    refine ⟨hline, ?_⟩
    rw [hcol, wrapInt_wrapInt_add, hcast, Int.add_assoc]
  | c :: cs =>
    obtain ⟨-, hpeek, -, hget, -⟩ := rest_cons hr
    have hcount : (l.source.take (l.pos + 1)).count '\n' =
        (l.source.take l.pos).count '\n' + if c = '\n' then 1 else 0 := by
      rw [List.take_succ, hget, List.count_append]
      by_cases hc : c = '\n'
      · simp [hc]
      · have hc2 : ¬ ('\n' = c) := fun h => hc h.symm
        simp [hc, hc2, List.count_singleton]
    have hls : lineStart l.source (l.pos + 1) =
        if c = '\n' then l.pos + 1 else lineStart l.source l.pos := by
      simp [lineStart, hget]
    by_cases hc : c = '\n'
    · simp only [hc, if_true] at hcount hls
      simp only [PosInv, advance, hpeek, hc, if_true, hcount, hls]
      refine ⟨?_, ?_⟩
      · rw [hline, wrapInt_wrapInt_add]
        congr 1
      · simp [wrapInt_one]
    · simp only [hc, if_false, Nat.add_zero] at hcount hls
      have hcast : ((l.pos + 1 - lineStart l.source l.pos : Nat) : Int) =
          ((l.pos - lineStart l.source l.pos : Nat) : Int) + 1 := by omega
      simp only [PosInv, advance, hpeek, hc, if_false, hcount, hls]
      refine ⟨hline, ?_⟩
      rw [hcol, wrapInt_wrapInt_add, hcast, Int.add_assoc]

theorem posInv_advanceN (k : Nat) (l : Lexer) (h : PosInv l) : PosInv (advanceN k l) := by
  induction k generalizing l with
  | zero => exact h
  | succ k ih => exact ih _ (posInv_advance l h)

/-! ## The first non-whitespace offset -/

theorem takeWhile_length_eq (p : Char → Bool) (xs : List Char) (k : Nat) (hk : k ≤ xs.length)
    (hpre : ∀ c ∈ xs.take k, p c = true) (hat : ∀ c ∈ xs[k]?, p c = false) :
    (xs.takeWhile p).length = k := by
  induction xs generalizing k with
  | nil => simp at hk; simp [hk]
  | cons x xs ih =>
    cases k with
    | zero =>
      have : p x = false := hat x (by simp)
      simp [List.takeWhile_cons, this]
    | succ k =>
      have hx : p x = true := hpre x (by simp)
      have := ih k (by simpa using hk) (fun c hc => hpre c (by simp [hc]))
        (fun c hc => hat c (by simpa using hc))
      simp [List.takeWhile_cons, hx, this]

theorem getElem?_length_takeWhile (q : Char → Bool) (xs : List Char) (d : Char)
    (h : xs[(xs.takeWhile q).length]? = some d) : q d = false := by
  induction xs with
  | nil => simp at h
  | cons a xs ih =>
    by_cases ha : q a = true
    · simp only [List.takeWhile_cons, ha, if_true, List.length_cons, List.getElem?_cons_succ] at h
      exact ih h
    · simp only [List.takeWhile_cons, ha] at h
      simp at h
      subst h
      simpa using ha

theorem takeWhile_length_le (p : Char → Bool) (xs : List Char) :
    (xs.takeWhile p).length ≤ xs.length :=
  (List.takeWhile_prefix p).length_le

theorem firstNonSpaceAt_exists (l : Lexer) (h : l.pos ≤ l.source.length) :
    FirstNonSpaceAt l.source l.pos (l.pos + ((rest l).takeWhile isspace).length) := by
  have hlen := takeWhile_length_le isspace (rest l)
  rw [rest_length] at hlen
  refine ⟨Nat.le_add_right _ _, by omega, ?_, ?_⟩
  · intro c hc
    have htake : (l.source.take (l.pos + ((rest l).takeWhile isspace).length)).drop l.pos =
        (rest l).takeWhile isspace := by
      rw [List.drop_take, Nat.add_sub_cancel_left]
      exact (List.prefix_iff_eq_take.mp (List.takeWhile_prefix isspace)).symm
    rw [htake] at hc
    exact List.mem_takeWhile_imp hc
  · intro c hc
    apply getElem?_length_takeWhile isspace (rest l) c
    rw [rest, List.getElem?_drop]
    exact hc

theorem firstNonSpaceAt_unique {l : Lexer} {s : Nat} (h : FirstNonSpaceAt l.source l.pos s) :
    s = l.pos + ((rest l).takeWhile isspace).length := by
  obtain ⟨h1, h2, h3, h4⟩ := h
  have := takeWhile_length_eq isspace (rest l) (s - l.pos) (by simp [rest]; omega)
    (by simpa [rest, List.drop_take] using h3)
    (by
      intro c hc
      apply h4 c
      have hs : l.pos + (s - l.pos) = s := by omega
      simpa [rest, List.getElem?_drop, hs] using hc)
  omega

theorem firstNonSpaceAt_skip {l : Lexer} {s : Nat} (h : FirstNonSpaceAt l.source l.pos s) :
    l.skipWhitespace.pos = s := by
  rw [skipWhitespace_eq, advanceN_pos, ← firstNonSpaceAt_unique h]

theorem skipWhitespace_source (l : Lexer) : l.skipWhitespace.source = l.source := by
  rw [skipWhitespace_eq, advanceN_source]

theorem posInv_skipWhitespace (l : Lexer) (h : PosInv l) : PosInv l.skipWhitespace := by
  rw [skipWhitespace_eq]
  exact posInv_advanceN _ _ h

/-- What is left after `skipWhitespace` does not start with whitespace. -/
theorem rest_skipWhitespace_head {l : Lexer} {c : Char} {cs : List Char}
    (h : rest l.skipWhitespace = c :: cs) : isspace c = false := by
  rw [rest_skipWhitespace] at h
  have := List.head_dropWhile_not isspace (rest l) (by simp [h])
  simpa [h] using this

theorem rest_of_getElem? {l : Lexer} {c : Char} (h : l.source[l.pos]? = some c) :
    rest l = c :: rest l.advance.2 := by
  have hlt : l.pos < l.source.length := by
    by_contra hge
    rw [List.getElem?_eq_none (by omega)] at h
    cases h
  have hc : l.source[l.pos] = c := by
    rw [List.getElem?_eq_getElem hlt] at h
    exact Option.some.inj h
  simp only [rest, advance_source, advance_pos]
  rw [List.drop_eq_getElem_cons hlt, hc]

/-! ## `nextToken`, case by case -/

theorem nextToken_eof {l : Lexer} (h : rest l.skipWhitespace = []) :
    l.nextToken =
      ({ type := TokenType.EndOfFile,
         value := [],
         line := l.skipWhitespace.line,
         column := l.skipWhitespace.column },
       l.skipWhitespace) := by
  simp [nextToken, rest_nil h]

theorem identifier_eq (l : Lexer) :
    l.identifier =
      ({ type := if (rest l).takeWhile isIdentChar = ['l', 'e', 't'] then TokenType.Let
                 else TokenType.Identifier,
         value := (rest l).takeWhile isIdentChar,
         line := (advanceN ((rest l).takeWhile isIdentChar).length l).line,
         column := l.column },
       advanceN ((rest l).takeWhile isIdentChar).length l) := by
  simp only [identifier, identifierLoop_eq, scanWhile_spec _ _ _ _ (rest_length l).le,
    List.nil_append]
  split <;> rfl

theorem number_eq (l : Lexer) :
    l.number =
      ({ type := TokenType.Number,
         value := (rest l).takeWhile isdigit,
         line := (advanceN ((rest l).takeWhile isdigit).length l).line,
         column := l.column },
       advanceN ((rest l).takeWhile isdigit).length l) := by
  simp only [number, numberLoop_eq, scanWhile_spec _ _ _ _ (rest_length l).le,
    List.nil_append]

theorem nextToken_alpha {l : Lexer} {c : Char} {cs : List Char}
    (h : rest l.skipWhitespace = c :: cs) (hc : isalpha c = true) :
    l.nextToken = l.skipWhitespace.identifier := by
  obtain ⟨hend, hpeek, -, -, -⟩ := rest_cons h
  simp [nextToken, hend, hpeek, hc]

theorem nextToken_digit {l : Lexer} {c : Char} {cs : List Char}
    (h : rest l.skipWhitespace = c :: cs) (hc : isdigit c = true) :
    l.nextToken = l.skipWhitespace.number := by
  obtain ⟨hend, hpeek, -, -, -⟩ := rest_cons h
  have ha : isalpha c = false := by
    by_contra ha
    simp [isalpha_not_isdigit (Bool.eq_true_of_not_eq_false ha)] at hc
  simp [nextToken, hend, hpeek, hc, ha]

/-- The token kind the `switch` of `nextToken` gives to a character. -/
theorem nextToken_other {l : Lexer} {c : Char} {cs : List Char}
    (h : rest l.skipWhitespace = c :: cs) (ha : isalpha c = false) (hd : isdigit c = false) :
    l.nextToken =
      ({ type := if c = '+' then TokenType.Plus else if c = '=' then TokenType.Equal
                 else if c = ';' then TokenType.Semicolon else TokenType.Unknown,
         value := [c],
         line := l.skipWhitespace.line,
         column := l.skipWhitespace.column },
       advanceN 1 l.skipWhitespace) := by
  obtain ⟨hend, hpeek, -, -, -⟩ := rest_cons h
  have hnl : c ≠ '\n' := ne_newline_of_not_isspace (rest_skipWhitespace_head h)
  have hline : l.skipWhitespace.advance.2.line = l.skipWhitespace.line := by
    simp [advance, hpeek, hnl]
  simp only [nextToken, hend, hpeek, ha, hd, hline, advanceN]
  simp only [Bool.false_eq_true, if_false]
  split
  · next h1 => subst h1; rfl
  · split
    · next h2 => subst h2; rfl
    · split
      · next h3 => subst h3; rfl
      · rfl

/-! ## The shape of every `nextToken` result -/

theorem take_length_takeWhile (p : Char → Bool) (xs : List Char) :
    xs.take (xs.takeWhile p).length = xs.takeWhile p :=
  (List.prefix_iff_eq_take.mp (List.takeWhile_prefix p)).symm

/-- A run of characters satisfying `p`, where `p` excludes the newline, leaves
the line unchanged. -/
theorem advanceN_takeWhile_line (p : Char → Bool) (hp : ∀ c, p c = true → c ≠ '\n')
    (l : Lexer) : (advanceN ((rest l).takeWhile p).length l).line = l.line := by
  refine (advanceN_no_newline _ l (takeWhile_length_le _ _) ?_).1
  rw [take_length_takeWhile]
  intro c hc
  exact hp c (List.mem_takeWhile_imp hc)

theorem isIdentChar_ne_newline (c : Char) (h : isIdentChar c = true) : c ≠ '\n' :=
  ne_newline_of_not_isspace (isIdentChar_not_isspace h)

theorem isdigit_ne_newline (c : Char) (h : isdigit c = true) : c ≠ '\n' :=
  ne_newline_of_not_isspace (isdigit_not_isspace h)

/-- Every token is positioned at the state reached by `skipWhitespace`, its text
is a prefix of the input left there, and the new state is that many `advance`
steps further. -/
theorem nextToken_shape (l : Lexer) :
    l.nextToken.1.line = l.skipWhitespace.line ∧
    l.nextToken.1.column = l.skipWhitespace.column ∧
    l.nextToken.2 = advanceN l.nextToken.1.value.length l.skipWhitespace ∧
    l.nextToken.1.value = (rest l.skipWhitespace).take l.nextToken.1.value.length ∧
    (l.nextToken.1.type = TokenType.EndOfFile ↔ rest l.skipWhitespace = []) ∧
    (l.nextToken.1.value = [] ↔ rest l.skipWhitespace = []) := by
  match hr : rest l.skipWhitespace with
  | [] =>
    rw [nextToken_eof hr]
    simp [advanceN]
  | c :: cs =>
    by_cases ha : isalpha c = true
    · rw [nextToken_alpha hr ha, identifier_eq, hr]
      have hc : isIdentChar c = true := isIdentChar_of_isalpha ha
      have hline := advanceN_takeWhile_line isIdentChar isIdentChar_ne_newline l.skipWhitespace
      rw [hr] at hline
      have htake := take_length_takeWhile isIdentChar (c :: cs)
      refine ⟨hline, rfl, rfl, htake.symm, ?_, ?_⟩
      · simp only [List.takeWhile_cons, hc, if_true]
        split <;> simp
      · simp [List.takeWhile_cons, hc]
    · by_cases hd : isdigit c = true
      · rw [nextToken_digit hr hd, number_eq, hr]
        have hline := advanceN_takeWhile_line isdigit isdigit_ne_newline l.skipWhitespace
        rw [hr] at hline
        have htake := take_length_takeWhile isdigit (c :: cs)
        refine ⟨hline, rfl, rfl, htake.symm, ?_, ?_⟩
        · simp
        · simp [List.takeWhile_cons, hd]
      · rw [nextToken_other hr (by simpa using ha) (by simpa using hd)]
        refine ⟨rfl, rfl, rfl, by simp, ?_, by simp⟩
        simp only [reduceCtorEq, iff_false]
        split
        · simp
        · split
          · simp
          · split <;> simp

theorem nextToken_source (l : Lexer) : l.nextToken.2.source = l.source := by
  rw [(nextToken_shape l).2.2.1, advanceN_source, skipWhitespace_source]

theorem nextToken_pos (l : Lexer) :
    l.nextToken.2.pos = l.skipWhitespace.pos + l.nextToken.1.value.length := by
  rw [(nextToken_shape l).2.2.1, advanceN_pos]

theorem skipWhitespace_pos_le (l : Lexer) (h : l.pos ≤ l.source.length) :
    l.pos ≤ l.skipWhitespace.pos ∧ l.skipWhitespace.pos ≤ l.source.length := by
  rw [skipWhitespace_eq, advanceN_pos]
  have := takeWhile_length_le isspace (rest l)
  rw [rest_length] at this
  omega

theorem nextToken_value_length_le (l : Lexer) :
    l.nextToken.1.value.length ≤ (rest l.skipWhitespace).length := by
  have := (nextToken_shape l).2.2.2.1
  rw [this]
  simp

theorem nextToken_pos_le (l : Lexer) (h : l.pos ≤ l.source.length) :
    l.nextToken.2.pos ≤ l.source.length := by
  have h1 := skipWhitespace_pos_le l h
  have h2 := nextToken_value_length_le l
  rw [rest_length, skipWhitespace_source] at h2
  rw [nextToken_pos]
  omega

theorem posInv_nextToken (l : Lexer) (h : PosInv l) : PosInv l.nextToken.2 := by
  rw [(nextToken_shape l).2.2.1]
  exact posInv_advanceN _ _ (posInv_skipWhitespace l h)

/-- What holds in every reachable state. -/
theorem reachable_inv {src : List Char} {l : Lexer} (h : Reachable src l) :
    l.source = src ∧ l.pos ≤ src.length ∧ PosInv l := by
  induction h with
  | init => exact ⟨rfl, Nat.zero_le _, posInv_new src⟩
  | step _ ih =>
    obtain ⟨h1, h2, h3⟩ := ih
    refine ⟨by rw [nextToken_source, h1], ?_, posInv_nextToken _ h3⟩
    have := nextToken_pos_le _ (by rw [h1]; exact h2)
    rwa [h1] at this

theorem lineAt_le_pos (src : List Char) (k : Nat) : lineAt src k ≤ k + 1 := by
  have h1 : (src.take k).count '\n' ≤ (src.take k).length := List.count_le_length _ _
  have h2 : (src.take k).length ≤ k := by simp
  unfold lineAt
  omega

theorem lineAt_le (src : List Char) (k : Nat) : lineAt src k ≤ src.length + 1 := by
  have h1 : (src.take k).count '\n' ≤ (src.take k).length := List.count_le_length _ _
  have h2 : (src.take k).length ≤ src.length := by simp
  unfold lineAt
  omega

theorem columnAt_le_pos (src : List Char) (k : Nat) : columnAt src k ≤ k + 1 := by
  have h1 : charsAfterLastNewline (src.take k) ≤ (src.take k).reverse.length :=
    (List.takeWhile_prefix _).length_le
  have h2 : (src.take k).reverse.length ≤ k := by simp
  unfold columnAt
  omega

theorem columnAt_le (src : List Char) (k : Nat) : columnAt src k ≤ src.length + 1 := by
  have h1 : charsAfterLastNewline (src.take k) ≤ (src.take k).reverse.length :=
    (List.takeWhile_prefix _).length_le
  have h2 : (src.take k).reverse.length ≤ src.length := by simp
  unfold columnAt
  omega

/-- In a reachable state on a source shorter than `2^31 - 1` characters the
counters hold the line and the column of the cursor: no increment has
overflowed. -/
theorem counters_exact {src : List Char} {l : Lexer} (h : Reachable src l)
    (hlen : src.length < 2147483647) :
    l.line = lineAt src l.pos ∧ l.column = columnAt src l.pos := by
  obtain ⟨hsrc, hle, hline, hcol⟩ := reachable_inv h
  subst hsrc
  have h1 := lineAt_le l.source l.pos
  have h2 := columnAt_le l.source l.pos
  have h3 := charsAfterLastNewline_take l.source l.pos hle
  unfold lineAt at h1 ⊢
  unfold columnAt at h2 ⊢
  rw [hline, hcol, ← h3]
  constructor
  · rw [wrapInt_of_range (by omega) (by omega)]
    push_cast
    rfl
  · rw [wrapInt_of_range (by omega) (by omega)]
    push_cast
    rfl

theorem reachable_lexerAfter (src : List Char) (n : Nat) : Reachable src (lexerAfter src n) := by
  induction n with
  | zero => exact Reachable.init
  | succ n ih => exact Reachable.step ih

theorem reachable_callsFrom {src : List Char} {l : Lexer} (h : Reachable src l) (n : Nat) :
    Reachable src (callsFrom l n) := by
  induction n with
  | zero => exact h
  | succ n ih => exact Reachable.step ih

/-! ## Token positions -/

/-- The line and column of the state reached by `skipWhitespace` from a
reachable state, in terms of the offset `s` of the first non-whitespace
character. -/
theorem skipWhitespace_position {src : List Char} {l : Lexer} (hl : Reachable src l)
    {s : Nat} (hs : FirstNonSpaceAt src l.pos s) :
    l.skipWhitespace.source = src ∧ l.skipWhitespace.pos = s ∧
    l.skipWhitespace.line = wrapInt (lineAt src s) ∧
    l.skipWhitespace.column = wrapInt (columnAt src s) := by
  obtain ⟨hsrc, -, hinv⟩ := reachable_inv hl
  subst hsrc
  have hpos := firstNonSpaceAt_skip hs
  obtain ⟨h1, h2⟩ := posInv_skipWhitespace l hinv
  rw [skipWhitespace_source, hpos] at h1 h2
  refine ⟨skipWhitespace_source l, hpos, ?_, ?_⟩
  · rw [h1, lineAt]
    push_cast
    rfl
  · rw [h2, columnAt, charsAfterLastNewline_take _ _ hs.2.1]
    push_cast
    rfl

/-- The input left after `skipWhitespace` starts with the character at `s`. -/
theorem rest_skipWhitespace_of_first {src : List Char} {l : Lexer} (hl : Reachable src l)
    {s : Nat} (hs : FirstNonSpaceAt src l.pos s) :
    rest l.skipWhitespace = src.drop s := by
  obtain ⟨h1, h2, -, -⟩ := skipWhitespace_position hl hs
  simp [rest, h1, h2]

theorem drop_of_getElem? {src : List Char} {s : Nat} {c : Char} (h : src[s]? = some c) :
    src.drop s = c :: src.drop (s + 1) := by
  have hlt : s < src.length := by
    by_contra hge
    rw [List.getElem?_eq_none (by omega)] at h
    cases h
  rw [List.getElem?_eq_getElem hlt] at h
  rw [List.drop_eq_getElem_cons hlt, Option.some.inj h]

/-- The line and column of the token returned from a reachable state, as `int`
values. -/
theorem token_position {src : List Char} {l : Lexer} (hl : Reachable src l)
    {s : Nat} (hs : FirstNonSpaceAt src l.pos s) :
    l.nextToken.1.line = wrapInt (lineAt src s) ∧
    l.nextToken.1.column = wrapInt (columnAt src s) := by
  obtain ⟨-, -, h3, h4⟩ := skipWhitespace_position hl hs
  obtain ⟨h5, h6, -⟩ := nextToken_shape l
  rw [h5, h6]
  exact ⟨h3, h4⟩

/-- An `int` that holds a natural number below `2^31` holds it exactly. -/
theorem exact_of_wrapInt {x : Int} {n : Nat} (h : x = wrapInt n) (hn : n < 2147483648) :
    x = n := by
  rw [h, wrapInt_of_range (by omega) (by omega)]

/-- On a source shorter than `2^31 - 1` characters the `int` values of the line
and the column of an offset are the line and the column themselves. -/
theorem position_exact {x y : Int} {src : List Char} {s : Nat}
    (hx : x = wrapInt (lineAt src s)) (hy : y = wrapInt (columnAt src s))
    (hlen : src.length < 2147483647) : x = lineAt src s ∧ y = columnAt src s := by
  have h1 := lineAt_le src s
  have h2 := columnAt_le src s
  exact ⟨exact_of_wrapInt hx (by omega), exact_of_wrapInt hy (by omega)⟩

/-! ## Long inputs -/

theorem isspace_of_mem_replicate {n : Nat} {c : Char} (h : c ∈ List.replicate n '\n') :
    isspace c = true := by
  rw [List.eq_of_mem_replicate h]
  decide

/-- In `n` newlines followed by a non-whitespace character `c`, that character is
the first non-whitespace one, on line `1 + n`, column 1. -/
theorem newlinesThen_first (n : Nat) (c : Char) (hc : isspace c = false) :
    FirstNonSpaceAt (newlinesThen n c) 0 n ∧
    (newlinesThen n c)[n]? = some c ∧
    lineAt (newlinesThen n c) n = 1 + n ∧
    columnAt (newlinesThen n c) n = 1 := by
  have htake : (newlinesThen n c).take n = List.replicate n '\n' := by
    unfold newlinesThen
    rw [List.take_append_of_le_length (by simp)]
    exact List.take_of_length_le (by simp)
  have hget : (newlinesThen n c)[n]? = some c := by
    unfold newlinesThen
    rw [List.getElem?_append_right (by simp)]
    simp
  refine ⟨⟨Nat.zero_le _, by simp [newlinesThen], ?_, ?_⟩, hget, ?_, ?_⟩
  · rw [htake, List.drop_zero]
    intro d hd
    exact isspace_of_mem_replicate hd
  · intro d hd
    rw [hget] at hd
    cases hd
    exact hc
  · rw [lineAt, htake, List.count_replicate_self]
  · rw [columnAt, htake, charsAfterLastNewline, List.reverse_replicate]
    cases n with
    | zero => rfl
    | succ n => simp [List.replicate_succ, List.takeWhile_cons]

/-- The first call on `n` newlines followed by a non-whitespace character `c`:
the token carries the `int` value of `1 + n` as its line. -/
theorem newlinesThen_call (n : Nat) (c : Char) (hc : isspace c = false) :
    Reachable (newlinesThen n c) (Lexer.new (newlinesThen n c)) ∧
    FirstNonSpaceAt (newlinesThen n c) (Lexer.new (newlinesThen n c)).pos n ∧
    (newlinesThen n c)[n]? = some c ∧
    1 + ((newlinesThen n c).take n).count '\n' = 1 + n ∧
    (Lexer.new (newlinesThen n c)).nextToken.1.line = wrapInt ((1 + n : Nat) : Int) := by
  obtain ⟨hfirst, hget, hline, -⟩ := newlinesThen_first n c hc
  refine ⟨Reachable.init, hfirst, hget, hline, ?_⟩
  rw [(token_position Reachable.init hfirst).1, hline]

theorem wrapInt_two_pow_31 : wrapInt ((1 + 2147483647 : Nat) : Int) = -2147483648 := by
  decide

/-- Counterexample to C1 as stated: on `2^31 - 1` newlines followed by `x` the
first non-whitespace character is at offset `2^31 - 1`, one plus the number of
newlines before it is `2^31`, and the line of the token is `-2^31`. -/
theorem nextToken_position_counterexample :
    Reachable (newlinesThen 2147483647 'x') (Lexer.new (newlinesThen 2147483647 'x')) ∧
    FirstNonSpaceAt (newlinesThen 2147483647 'x') (Lexer.new (newlinesThen 2147483647 'x')).pos
      2147483647 ∧
    1 + ((newlinesThen 2147483647 'x').take 2147483647).count '\n' = 2147483648 ∧
    (Lexer.new (newlinesThen 2147483647 'x')).nextToken.1.line = -2147483648 :=
  ⟨(newlinesThen_call 2147483647 'x' (by decide)).1,
    (newlinesThen_call 2147483647 'x' (by decide)).2.1,
    (newlinesThen_call 2147483647 'x' (by decide)).2.2.2.1.trans (by decide),
    (newlinesThen_call 2147483647 'x' (by decide)).2.2.2.2.trans wrapInt_two_pow_31⟩

/-- Claim C1, amended. In every state reachable from the initial one, the token
returned by `nextToken` carries the line and column of the first character of
its text, as `int` values: with `s` the offset of the first non-whitespace
character at or after the cursor (the length when there is none; such an `s`
exists and is unique, first part), the line is the `int` value of one plus the
number of newlines in `source[0..s)` and the column is the `int` value of one
plus the number of characters of `source[0..s)` after its last newline; each
is that number itself when the number is below `2^31`, and both are when the
source is shorter than `2^31 - 1` characters (second part).  The third part is
the example `"x\n+ y"` of the specification. -/
theorem nextToken_position_of_first_char :
    (∀ (src : List Char) (l : Lexer), Reachable src l →
      ∃ s : Nat, FirstNonSpaceAt src l.pos s ∧ ∀ s2, FirstNonSpaceAt src l.pos s2 → s2 = s) ∧
    (∀ (src : List Char) (l : Lexer), Reachable src l →
      ∀ s : Nat, FirstNonSpaceAt src l.pos s →
        l.nextToken.1.line = wrapInt ((1 + (src.take s).count '\n' : Nat) : Int) ∧
        l.nextToken.1.column = wrapInt ((1 + charsAfterLastNewline (src.take s) : Nat) : Int) ∧
        (1 + (src.take s).count '\n' < 2147483648 →
          l.nextToken.1.line = ((1 + (src.take s).count '\n' : Nat) : Int)) ∧
        (1 + charsAfterLastNewline (src.take s) < 2147483648 →
          l.nextToken.1.column = ((1 + charsAfterLastNewline (src.take s) : Nat) : Int)) ∧
        (src.length < 2147483647 →
          l.nextToken.1.line = ((1 + (src.take s).count '\n' : Nat) : Int) ∧
          l.nextToken.1.column = ((1 + charsAfterLastNewline (src.take s) : Nat) : Int))) ∧
    (List.range 4).map (tokenAt "x\n+ y".toList) =
      [{ type := TokenType.Identifier, value := "x".toList, line := 1, column := 1 },
       { type := TokenType.Plus, value := "+".toList, line := 2, column := 1 },
       { type := TokenType.Identifier, value := "y".toList, line := 2, column := 3 },
       { type := TokenType.EndOfFile, value := [], line := 2, column := 4 }] := by
  refine ⟨?_, ?_, by decide⟩
  · intro src l hl
    obtain ⟨hsrc, hle, -⟩ := reachable_inv hl
    subst hsrc
    exact ⟨_, firstNonSpaceAt_exists l hle, fun s2 hs2 => firstNonSpaceAt_unique hs2⟩
  · intro src l hl s hs
    obtain ⟨h1, h2⟩ := token_position hl hs
    exact ⟨h1, h2, exact_of_wrapInt h1, exact_of_wrapInt h2, position_exact h1 h2⟩

/-- Witness for C1: after two calls on `"x\n+ y"` the cursor is at offset 3 (the
space), the first non-whitespace character is `y` at offset 4, and the token is
at line 2, column 3. -/
theorem nextToken_position_of_first_char_witness :
    Reachable "x\n+ y".toList (lexerAfter "x\n+ y".toList 2) ∧
    (lexerAfter "x\n+ y".toList 2).pos = 3 ∧
    FirstNonSpaceAt "x\n+ y".toList (lexerAfter "x\n+ y".toList 2).pos 4 ∧
    "x\n+ y".toList.length < 2147483647 ∧
    (lexerAfter "x\n+ y".toList 2).nextToken.1.line = 2 ∧
    (lexerAfter "x\n+ y".toList 2).nextToken.1.column = 3 :=
  ⟨reachable_lexerAfter _ 2, by decide, by decide, by decide,
    (nextToken_position_of_first_char.2.1 "x\n+ y".toList _ (reachable_lexerAfter _ 2) 4
      (by decide)).2.2.2.2 (by decide)⟩

/-! ## The invariant -/

theorem lineStart_spec (src : List Char) (k : Nat) :
    lineStart src k ≤ k ∧
    (lineStart src k = 0 ∨ src[lineStart src k - 1]? = some '\n') ∧
    ∀ i, lineStart src k ≤ i → i < k → src[i]? ≠ some '\n' := by
  induction k with
  | zero => simp [lineStart]
  | succ k ih =>
    obtain ⟨h1, h2, h3⟩ := ih
    by_cases hc : src[k]? = some '\n'
    · simp only [lineStart, hc, if_true]
      refine ⟨le_refl _, Or.inr (by simpa using hc), ?_⟩
      intro i hi hlt
      omega
    · simp only [lineStart, hc, if_false]
      refine ⟨by omega, h2, ?_⟩
      intro i hi hlt
      by_cases hik : i = k
      · subst hik; exact hc
      · exact h3 i hi (by omega)

theorem advance_effect (l : Lexer) (c : Char) (h : l.source[l.pos]? = some c) :
    (c = '\n' →
      l.advance =
        (c, { l with pos := l.pos + 1, line := wrapInt (l.line + 1), column := 1 })) ∧
    (c ≠ '\n' →
      l.advance = (c, { l with pos := l.pos + 1, column := wrapInt (l.column + 1) })) := by
  obtain ⟨-, hpeek, -, -, -⟩ := rest_cons (rest_of_getElem? h)
  constructor
  · intro hc
    simp [advance, hpeek, hc]
  · intro hc
    simp [advance, hpeek, hc]

/-- The invariant with the offset `p` written out, and without `wrapInt` when the
values are below `2^31`. -/
theorem posInv_exact {l : Lexer} (h : PosInv l) (hle : l.pos ≤ l.source.length) :
    l.line = wrapInt (lineAt l.source l.pos) ∧
    l.column = wrapInt (columnAt l.source l.pos) ∧
    ((lineAt l.source l.pos : Int) =
      ((1 + (l.source.take l.pos).count '\n' : Nat) : Int)) ∧
    ((columnAt l.source l.pos : Int) =
      ((1 + (l.pos - lineStart l.source l.pos) : Nat) : Int)) := by
  obtain ⟨h1, h2⟩ := h
  have h3 := charsAfterLastNewline_take l.source l.pos hle
  refine ⟨?_, ?_, rfl, ?_⟩
  · rw [h1, lineAt]
    push_cast
    rfl
  · rw [h2, columnAt, h3]
    push_cast
    rfl
  · rw [columnAt, h3]

/-- On a source shorter than `2^31 - 1` characters `advance` at a real character
increments without overflow. -/
theorem advance_exact {l : Lexer} (h : PosInv l) (hlen : l.source.length < 2147483647)
    (c : Char) (hc : l.source[l.pos]? = some c) :
    (c = '\n' → l.advance.2.line = l.line + 1 ∧ l.advance.2.column = 1) ∧
    (c ≠ '\n' → l.advance.2.line = l.line ∧ l.advance.2.column = l.column + 1) := by
  obtain ⟨-, -, -, -, hlt⟩ := rest_cons (rest_of_getElem? hc)
  obtain ⟨h1, h2, -, -⟩ := posInv_exact h hlt.le
  have b1 := lineAt_le_pos l.source l.pos
  have b2 := columnAt_le_pos l.source l.pos
  have e1 : l.line = lineAt l.source l.pos := exact_of_wrapInt h1 (by omega)
  have e2 : l.column = columnAt l.source l.pos := exact_of_wrapInt h2 (by omega)
  obtain ⟨a1, a2⟩ := advance_effect l c hc
  constructor
  · intro hnl
    rw [a1 hnl]
    exact ⟨wrapInt_of_range (by omega) (by omega), rfl⟩
  · intro hnl
    rw [a2 hnl]
    exact ⟨rfl, wrapInt_of_range (by omega) (by omega)⟩

/-- After the first call on `n` newlines followed by `c` the cursor is at the end
and the line counter holds the `int` value of `1 + n`. -/
theorem newlinesThen_after_call (n : Nat) (c : Char) (hc : isspace c = false) :
    Reachable (newlinesThen n c) (Lexer.new (newlinesThen n c)).nextToken.2 ∧
    (Lexer.new (newlinesThen n c)).nextToken.2.pos = n + 1 ∧
    1 + ((newlinesThen n c).take (n + 1)).count '\n' = 1 + n ∧
    (Lexer.new (newlinesThen n c)).nextToken.2.line = wrapInt ((1 + n : Nat) : Int) := by
  obtain ⟨hfirst, hget, hline, -⟩ := newlinesThen_first n c hc
  obtain ⟨-, hpos, hl1, -⟩ := skipWhitespace_position Reachable.init hfirst
  have hrest := rest_skipWhitespace_of_first Reachable.init hfirst
  have hlen : (newlinesThen n c).length = n + 1 := by simp [newlinesThen]
  obtain ⟨-, -, hstate, -, -, hnil⟩ := nextToken_shape (Lexer.new (newlinesThen n c))
  have hne : (Lexer.new (newlinesThen n c)).nextToken.1.value ≠ [] := by
    intro hv
    have := hnil.mp hv
    rw [hrest, drop_of_getElem? hget] at this
    cases this
  have hvlen := List.length_pos.mpr hne
  have hp := nextToken_pos (Lexer.new (newlinesThen n c))
  have hb := nextToken_pos_le (Lexer.new (newlinesThen n c)) (Nat.zero_le _)
  have hb2 : (Lexer.new (newlinesThen n c)).nextToken.2.pos ≤ n + 1 := by
    rw [← hlen]
    exact hb
  have hnl := advanceN_no_newline (Lexer.new (newlinesThen n c)).nextToken.1.value.length
    (Lexer.new (newlinesThen n c)).skipWhitespace
    (nextToken_value_length_le _) (by
      rw [hrest, drop_of_getElem? hget]
      intro d hd
      have hd2 := List.mem_of_mem_take hd
      rw [List.drop_of_length_le (by omega)] at hd2
      simp at hd2
      rw [hd2]
      exact ne_newline_of_not_isspace hc)
  rw [← hstate] at hnl
  refine ⟨Reachable.step Reachable.init, by omega, ?_, ?_⟩
  · rw [List.take_of_length_le (by omega)]
    unfold newlinesThen
    rw [List.count_append, List.count_replicate_self]
    have hcn : ¬ ('\n' = c) := fun h => ne_newline_of_not_isspace hc h.symm
    simp [List.count_singleton, hcn]
  · rw [hnl.1, hl1, hline]

/-- Counterexample to C2 as stated: after the first call on `2^31 - 1` newlines
followed by `x` the reachable state has its cursor at offset `2^31`, one plus
the number of newlines before the cursor is `2^31`, and the line counter is
`-2^31`. -/
theorem line_column_invariant_counterexample :
    Reachable (newlinesThen 2147483647 'x')
      (Lexer.new (newlinesThen 2147483647 'x')).nextToken.2 ∧
    (Lexer.new (newlinesThen 2147483647 'x')).nextToken.2.pos = 2147483647 + 1 ∧
    1 + ((newlinesThen 2147483647 'x').take (2147483647 + 1)).count '\n' = 2147483648 ∧
    (Lexer.new (newlinesThen 2147483647 'x')).nextToken.2.line = -2147483648 :=
  ⟨(newlinesThen_after_call 2147483647 'x' (by decide)).1,
    (newlinesThen_after_call 2147483647 'x' (by decide)).2.1,
    (newlinesThen_after_call 2147483647 'x' (by decide)).2.2.1.trans (by decide),
    (newlinesThen_after_call 2147483647 'x' (by decide)).2.2.2.trans wrapInt_two_pow_31⟩

/-- Claim C2, amended. Line/column invariant for `int` counters: `line` is the
`int` value of one plus the number of newlines in `source[0..pos)` and `column`
the `int` value of `1 + (pos - p)` with `p` the offset just after the last
newline in `source[0..pos)` (`0` when there is none; the first conjunct says
that `lineStart` is that offset).  The initial state satisfies the invariant,
`advance`, `skipWhitespace` and `nextToken` preserve it, so it holds in every
reachable state, where the counters are these numbers themselves when the
source is shorter than `2^31 - 1` characters.  Consuming `'\n'` increments the
line as an `int` and resets the column to 1, consuming any other character
(tab and carriage return included) increments the column as an `int`; in a
state that satisfies the invariant on a source shorter than `2^31 - 1`
characters both increments are by exactly 1. -/
theorem line_column_invariant :
    (∀ (src : List Char) (k : Nat),
      lineStart src k ≤ k ∧
      (lineStart src k = 0 ∨ src[lineStart src k - 1]? = some '\n') ∧
      ∀ i, lineStart src k ≤ i → i < k → src[i]? ≠ some '\n') ∧
    (∀ src : List Char, PosInv (Lexer.new src)) ∧
    (∀ l : Lexer, PosInv l → PosInv l.advance.2) ∧
    (∀ l : Lexer, PosInv l → PosInv l.skipWhitespace) ∧
    (∀ l : Lexer, PosInv l → PosInv l.nextToken.2) ∧
    (∀ (src : List Char) (l : Lexer), Reachable src l →
      l.line = wrapInt ((1 + (src.take l.pos).count '\n' : Nat) : Int) ∧
      l.column = wrapInt ((1 + (l.pos - lineStart src l.pos) : Nat) : Int) ∧
      (src.length < 2147483647 →
        l.line = ((1 + (src.take l.pos).count '\n' : Nat) : Int) ∧
        l.column = ((1 + (l.pos - lineStart src l.pos) : Nat) : Int))) ∧
    (∀ (l : Lexer) (c : Char), l.source[l.pos]? = some c →
      (c = '\n' →
        l.advance =
          (c, { l with pos := l.pos + 1, line := wrapInt (l.line + 1), column := 1 })) ∧
      (c ≠ '\n' →
        l.advance = (c, { l with pos := l.pos + 1, column := wrapInt (l.column + 1) }))) ∧
    (∀ x : Int, -2147483648 ≤ x → x < 2147483647 → wrapInt (x + 1) = x + 1) ∧
    (∀ l : Lexer, PosInv l → l.source.length < 2147483647 →
      ∀ c : Char, l.source[l.pos]? = some c →
        (c = '\n' → l.advance.2.line = l.line + 1 ∧ l.advance.2.column = 1) ∧
        (c ≠ '\n' → l.advance.2.line = l.line ∧ l.advance.2.column = l.column + 1)) ∧
    (Lexer.mk "a\tb\r\nc".toList 3 1 4).advance.2 = Lexer.mk "a\tb\r\nc".toList 4 1 5 ∧
    (Lexer.mk "a\tb\r\nc".toList 1 1 2).advance.2 = Lexer.mk "a\tb\r\nc".toList 2 1 3 ∧
    (Lexer.mk "a\tb\r\nc".toList 4 1 5).advance.2 = Lexer.mk "a\tb\r\nc".toList 5 2 1 := by
  refine ⟨lineStart_spec, posInv_new, posInv_advance, posInv_skipWhitespace, posInv_nextToken,
    ?_, advance_effect, fun x h1 h2 => wrapInt_of_range (by omega) (by omega),
    fun l h hlen c hc => advance_exact h hlen c hc, by decide, by decide, by decide⟩
  intro src l hl
  obtain ⟨hsrc, hle, hinv⟩ := reachable_inv hl
  subst hsrc
  obtain ⟨h1, h2, h3, h4⟩ := posInv_exact hinv hle
  have b1 := lineAt_le l.source l.pos
  have b2 := columnAt_le l.source l.pos
  refine ⟨hinv.1, hinv.2, fun hlen => ⟨?_, ?_⟩⟩
  · rw [← h3]
    exact exact_of_wrapInt h1 (by omega)
  · rw [← h4]
    exact exact_of_wrapInt h2 (by omega)

/-! ## Maximal runs -/

theorem prefix_all_length_le (q : Char → Bool) (xs p : List Char) (hp : p <+: xs)
    (hall : ∀ d ∈ p, q d = true) : p.length ≤ (xs.takeWhile q).length := by
  induction p generalizing xs with
  | nil => simp
  | cons a p ih =>
    obtain ⟨t, rfl⟩ := hp
    have ha : q a = true := hall a (by simp)
    have := ih (p ++ t) (List.prefix_append p t) (fun d hd => hall d (by simp [hd]))
    simpa [List.takeWhile_cons, ha] using this

theorem isIdentChar_iff (d : Char) :
    isIdentChar d = true ↔ (isalpha d = true ∨ isdigit d = true ∨ d = '_') := by
  simp [isIdentChar, isalnum, or_assoc]

/-- The facts shared by the identifier and the number scan: from a reachable
state whose first non-whitespace character is at `s`, a token whose text is the
run `takeWhile q` of the input at `s` ends the call at offset `s` plus the
length of the run, and the run is the longest prefix made of `q` characters. -/
theorem run_facts (q : Char → Bool) (src : List Char) (s : Nat) :
    (src.drop s).takeWhile q <+: src.drop s ∧
    (∀ d ∈ (src.drop s).takeWhile q, q d = true) ∧
    (∀ p : List Char, p <+: src.drop s → (∀ d ∈ p, q d = true) →
      p.length ≤ ((src.drop s).takeWhile q).length) ∧
    (∀ d, src[s + ((src.drop s).takeWhile q).length]? = some d → q d = false) := by
  refine ⟨List.takeWhile_prefix q, fun d hd => List.mem_takeWhile_imp hd,
    fun p hp hall => prefix_all_length_le q _ p hp hall, ?_⟩
  intro d hd
  apply getElem?_length_takeWhile q (src.drop s) d
  rw [List.getElem?_drop]
  exact hd

/-- Claim C3. Longest-match identifier/keyword scan: when the first non-whitespace
character at or after the cursor of a reachable state is an ASCII letter, the
text of the token is the longest prefix of the input starting at that letter
that is made only of ASCII letters, digits and underscores, the kind is `Let`
exactly when that text is `let` and `Identifier` otherwise, the token is at the
position of the letter (as `int` values, which are the line and the column
themselves when the source is shorter than `2^31 - 1` characters) and the
cursor ends just after the run.  `"let"` gives
one `Let` token at (1,1); `"letx"` gives one `Identifier` token `letx` at (1,1)
and, like `"LET"`, no `Let` token. -/
theorem identifier_longest_match :
    (∀ (src : List Char) (l : Lexer), Reachable src l →
      ∀ s : Nat, FirstNonSpaceAt src l.pos s →
      ∀ c : Char, src[s]? = some c → isalpha c = true →
        l.nextToken.1.value <+: src.drop s ∧
        l.nextToken.1.value.head? = some c ∧
        (∀ d ∈ l.nextToken.1.value, isalpha d = true ∨ isdigit d = true ∨ d = '_') ∧
        (∀ p : List Char, p <+: src.drop s →
          (∀ d ∈ p, isalpha d = true ∨ isdigit d = true ∨ d = '_') →
          p.length ≤ l.nextToken.1.value.length) ∧
        (l.nextToken.1.type = TokenType.Let ↔ l.nextToken.1.value = "let".toList) ∧
        (l.nextToken.1.value ≠ "let".toList → l.nextToken.1.type = TokenType.Identifier) ∧
        l.nextToken.1.line = wrapInt ((1 + (src.take s).count '\n' : Nat) : Int) ∧
        l.nextToken.1.column = wrapInt ((1 + charsAfterLastNewline (src.take s) : Nat) : Int) ∧
        (src.length < 2147483647 →
          l.nextToken.1.line = ((1 + (src.take s).count '\n' : Nat) : Int) ∧
          l.nextToken.1.column = ((1 + charsAfterLastNewline (src.take s) : Nat) : Int)) ∧
        l.nextToken.2.pos = s + l.nextToken.1.value.length) ∧
    (List.range 2).map (tokenAt "let".toList) =
      [{ type := TokenType.Let, value := "let".toList, line := 1, column := 1 },
       { type := TokenType.EndOfFile, value := [], line := 1, column := 4 }] ∧
    (List.range 2).map (tokenAt "letx".toList) =
      [{ type := TokenType.Identifier, value := "letx".toList, line := 1, column := 1 },
       { type := TokenType.EndOfFile, value := [], line := 1, column := 5 }] ∧
    (List.range 2).map (tokenAt "LET".toList) =
      [{ type := TokenType.Identifier, value := "LET".toList, line := 1, column := 1 },
       { type := TokenType.EndOfFile, value := [], line := 1, column := 4 }] := by
  refine ⟨?_, by decide, by decide, by decide⟩
  intro src l hl s hs c hc ha
  obtain ⟨h1, h2, -, -⟩ := skipWhitespace_position hl hs
  obtain ⟨p1, p2⟩ := token_position hl hs
  have hrest := rest_skipWhitespace_of_first hl hs
  have hcons := drop_of_getElem? hc
  obtain ⟨r1, r2, r3, -⟩ := run_facts isIdentChar src s
  have hnt := nextToken_alpha (hrest.trans hcons) ha
  rw [identifier_eq, hrest] at hnt
  rw [hnt] at p1 p2
  rw [hnt]
  dsimp only [String.toList] at p1 p2 ⊢
  refine ⟨r1, ?_, fun d hd => (isIdentChar_iff d).mp (r2 d hd),
    fun p hp hall => r3 p hp (fun d hd => (isIdentChar_iff d).mpr (hall d hd)), ?_, ?_,
    p1, p2, position_exact p1 p2, by rw [advanceN_pos, h2]⟩
  · simp [hcons, List.takeWhile_cons, isIdentChar_of_isalpha ha]
  · split <;> simp_all
  · intro hne
    simp [hne]

/-- Witness for C3: in `"a letx"` after the first call the cursor is at offset
1, the first non-whitespace character is the letter `l` at offset 2, and the
token is the identifier `letx`. -/
theorem identifier_longest_match_witness :
    Reachable "a letx".toList (lexerAfter "a letx".toList 1) ∧
    FirstNonSpaceAt "a letx".toList (lexerAfter "a letx".toList 1).pos 2 ∧
    "a letx".toList[2]? = some 'l' ∧ isalpha 'l' = true ∧
    (lexerAfter "a letx".toList 1).nextToken.1.value = "letx".toList ∧
    (lexerAfter "a letx".toList 1).nextToken.1.type = TokenType.Identifier :=
  ⟨reachable_lexerAfter _ 1, by decide, by decide, by decide, by decide,
    (identifier_longest_match.1 "a letx".toList _ (reachable_lexerAfter _ 1) 2 (by decide) 'l'
      (by decide) (by decide)).2.2.2.2.2.1 (by decide)⟩

/-- Counterexample to C4 as stated: on `2^31 - 1` newlines followed by the digit
`7`, the first non-whitespace character is that digit, at offset `2^31 - 1`;
one plus the number of newlines before it is `2^31`, and the line of the token
is `-2^31`. -/
theorem number_position_counterexample :
    Reachable (newlinesThen 2147483647 '7') (Lexer.new (newlinesThen 2147483647 '7')) ∧
    FirstNonSpaceAt (newlinesThen 2147483647 '7') (Lexer.new (newlinesThen 2147483647 '7')).pos
      2147483647 ∧
    (newlinesThen 2147483647 '7')[2147483647]? = some '7' ∧
    isdigit '7' = true ∧
    1 + ((newlinesThen 2147483647 '7').take 2147483647).count '\n' = 2147483648 ∧
    (Lexer.new (newlinesThen 2147483647 '7')).nextToken.1.line = -2147483648 :=
  ⟨(newlinesThen_call 2147483647 '7' (by decide)).1,
    (newlinesThen_call 2147483647 '7' (by decide)).2.1,
    (newlinesThen_call 2147483647 '7' (by decide)).2.2.1,
    by decide,
    (newlinesThen_call 2147483647 '7' (by decide)).2.2.2.1.trans (by decide),
    (newlinesThen_call 2147483647 '7' (by decide)).2.2.2.2.trans wrapInt_two_pow_31⟩

/-- Claim C4, amended. Number scan: when the first non-whitespace character at or
after the cursor of a reachable state is an ASCII digit, `nextToken` returns a
`Number` token whose text is the maximal run of digits of the input starting
at that character, copied as it stands; its line and column are the `int`
values of the line and column of the first digit, which are the line and
column themselves when the source is shorter than `2^31 - 1` characters; the
cursor ends just after the run and the character there, if any, is not a
digit.  `"123abc"` gives `Number "123"` at (1,1), then `Identifier "abc"` at
(1,4), and leading zeros are kept. -/
theorem number_maximal_digit_run :
    (∀ (src : List Char) (l : Lexer), Reachable src l →
      ∀ s : Nat, FirstNonSpaceAt src l.pos s →
      ∀ c : Char, src[s]? = some c → isdigit c = true →
        l.nextToken.1.type = TokenType.Number ∧
        l.nextToken.1.value <+: src.drop s ∧
        l.nextToken.1.value.head? = some c ∧
        (∀ d ∈ l.nextToken.1.value, isdigit d = true) ∧
        (∀ p : List Char, p <+: src.drop s → (∀ d ∈ p, isdigit d = true) →
          p.length ≤ l.nextToken.1.value.length) ∧
        l.nextToken.1.line = wrapInt ((1 + (src.take s).count '\n' : Nat) : Int) ∧
        l.nextToken.1.column = wrapInt ((1 + charsAfterLastNewline (src.take s) : Nat) : Int) ∧
        (src.length < 2147483647 →
          l.nextToken.1.line = ((1 + (src.take s).count '\n' : Nat) : Int) ∧
          l.nextToken.1.column = ((1 + charsAfterLastNewline (src.take s) : Nat) : Int)) ∧
        l.nextToken.2.pos = s + l.nextToken.1.value.length ∧
        (∀ d, src[l.nextToken.2.pos]? = some d → isdigit d = false)) ∧
    (List.range 3).map (tokenAt "123abc".toList) =
      [{ type := TokenType.Number, value := "123".toList, line := 1, column := 1 },
       { type := TokenType.Identifier, value := "abc".toList, line := 1, column := 4 },
       { type := TokenType.EndOfFile, value := [], line := 1, column := 7 }] ∧
    (List.range 4).map (tokenAt "007.5".toList) =
      [{ type := TokenType.Number, value := "007".toList, line := 1, column := 1 },
       { type := TokenType.Unknown, value := ".".toList, line := 1, column := 4 },
       { type := TokenType.Number, value := "5".toList, line := 1, column := 5 },
       { type := TokenType.EndOfFile, value := [], line := 1, column := 6 }] := by
  refine ⟨?_, by decide, by decide⟩
  intro src l hl s hs c hc hd
  obtain ⟨h1, h2, -, -⟩ := skipWhitespace_position hl hs
  obtain ⟨p1, p2⟩ := token_position hl hs
  have hrest := rest_skipWhitespace_of_first hl hs
  have hcons := drop_of_getElem? hc
  obtain ⟨r1, r2, r3, r4⟩ := run_facts isdigit src s
  have hnt := nextToken_digit (hrest.trans hcons) hd
  rw [number_eq, hrest] at hnt
  rw [hnt] at p1 p2
  rw [hnt]
  dsimp only at p1 p2 ⊢
  refine ⟨rfl, r1, ?_, r2, r3, p1, p2, position_exact p1 p2, by rw [advanceN_pos, h2], ?_⟩
  · simp [hcons, List.takeWhile_cons, hd]
  · rw [advanceN_pos, h2]
    exact r4

/-- Witness for C4: in `"x 42;"` after the first call the first non-whitespace
character is the digit `4` at offset 2; the token is `Number "42"` at column 3
and the cursor stops at offset 4, before the `;`. -/
theorem number_maximal_digit_run_witness :
    Reachable "x 42;".toList (lexerAfter "x 42;".toList 1) ∧
    FirstNonSpaceAt "x 42;".toList (lexerAfter "x 42;".toList 1).pos 2 ∧
    "x 42;".toList[2]? = some '4' ∧ isdigit '4' = true ∧
    "x 42;".toList.length < 2147483647 ∧
    (lexerAfter "x 42;".toList 1).nextToken.1.value = "42".toList ∧
    (lexerAfter "x 42;".toList 1).nextToken.1.type = TokenType.Number ∧
    (lexerAfter "x 42;".toList 1).nextToken.1.line = 1 ∧
    (lexerAfter "x 42;".toList 1).nextToken.1.column = 3 :=
  ⟨reachable_lexerAfter _ 1, by decide, by decide, by decide, by decide, by decide,
    (number_maximal_digit_run.1 "x 42;".toList _ (reachable_lexerAfter _ 1) 2 (by decide) '4'
      (by decide) (by decide)).1,
    (number_maximal_digit_run.1 "x 42;".toList _ (reachable_lexerAfter _ 1) 2 (by decide) '4'
      (by decide) (by decide)).2.2.2.2.2.2.2.1 (by decide)⟩

/-- The result of `nextToken` when the first non-whitespace character is neither
a letter nor a digit. -/
theorem nextToken_single_char {src : List Char} {l : Lexer} (hl : Reachable src l)
    {s : Nat} (hs : FirstNonSpaceAt src l.pos s) {c : Char} (hc : src[s]? = some c)
    (ha : isalpha c = false) (hd : isdigit c = false) :
    l.nextToken =
      ({ type := if c = '+' then TokenType.Plus else if c = '=' then TokenType.Equal
                 else if c = ';' then TokenType.Semicolon else TokenType.Unknown,
         value := [c],
         line := wrapInt ((1 + (src.take s).count '\n' : Nat) : Int),
         column := wrapInt ((1 + charsAfterLastNewline (src.take s) : Nat) : Int) },
       { source := src,
         pos := s + 1,
         line := wrapInt ((1 + (src.take s).count '\n' : Nat) : Int),
         column := wrapInt ((1 + charsAfterLastNewline (src.take s) + 1 : Nat) : Int) }) := by
  obtain ⟨h1, h2, h3, h4⟩ := skipWhitespace_position hl hs
  have hrest := rest_skipWhitespace_of_first hl hs
  have hcons := drop_of_getElem? hc
  have hr := hrest.trans hcons
  rw [nextToken_other hr ha hd, h3, h4]
  have hnl : c ≠ '\n' := ne_newline_of_not_isspace (rest_skipWhitespace_head hr)
  have hget : l.skipWhitespace.source[l.skipWhitespace.pos]? = some c := by rw [h1, h2]; exact hc
  have hadv := (advance_effect l.skipWhitespace c hget).2 hnl
  have hcol : wrapInt (wrapInt (columnAt src s) + 1) =
      wrapInt ((1 + charsAfterLastNewline (src.take s) + 1 : Nat) : Int) := by
    rw [wrapInt_wrapInt_add, columnAt]
    push_cast
    rfl
  simp only [advanceN, hadv, h1, h2, h3, h4, hcol]
  rfl

/-- On a source shorter than `2^31 - 1` characters the `int` values in the result
of `nextToken_single_char` are the numbers themselves. -/
theorem single_char_exact {src : List Char} {s : Nat} {c : Char} (hc : src[s]? = some c)
    (hlen : src.length < 2147483647) :
    wrapInt ((1 + (src.take s).count '\n' : Nat) : Int) =
      ((1 + (src.take s).count '\n' : Nat) : Int) ∧
    wrapInt ((1 + charsAfterLastNewline (src.take s) : Nat) : Int) =
      ((1 + charsAfterLastNewline (src.take s) : Nat) : Int) ∧
    wrapInt ((1 + charsAfterLastNewline (src.take s) + 1 : Nat) : Int) =
      ((1 + charsAfterLastNewline (src.take s) + 1 : Nat) : Int) := by
  have hlt : s < src.length := by
    by_contra hge
    rw [List.getElem?_eq_none (by omega)] at hc
    cases hc
  have b1 := lineAt_le_pos src s
  have b2 := columnAt_le_pos src s
  unfold lineAt at b1
  unfold columnAt at b2
  exact ⟨wrapInt_of_range (by omega) (by omega), wrapInt_of_range (by omega) (by omega),
    wrapInt_of_range (by omega) (by omega)⟩

/-- Counterexample to C5 as stated: on `2^31 - 1` newlines followed by `#`, the
first non-whitespace character is `#`, at offset `2^31 - 1`; one plus the
number of newlines before it is `2^31`, and the line of the token is `-2^31`. -/
theorem unknown_position_counterexample :
    Reachable (newlinesThen 2147483647 '#') (Lexer.new (newlinesThen 2147483647 '#')) ∧
    FirstNonSpaceAt (newlinesThen 2147483647 '#') (Lexer.new (newlinesThen 2147483647 '#')).pos
      2147483647 ∧
    (newlinesThen 2147483647 '#')[2147483647]? = some '#' ∧
    (isalpha '#' = false ∧ isdigit '#' = false ∧ '#' ≠ '+' ∧ '#' ≠ '=' ∧ '#' ≠ ';') ∧
    1 + ((newlinesThen 2147483647 '#').take 2147483647).count '\n' = 2147483648 ∧
    (Lexer.new (newlinesThen 2147483647 '#')).nextToken.1.line = -2147483648 :=
  ⟨(newlinesThen_call 2147483647 '#' (by decide)).1,
    (newlinesThen_call 2147483647 '#' (by decide)).2.1,
    (newlinesThen_call 2147483647 '#' (by decide)).2.2.1,
    by decide,
    (newlinesThen_call 2147483647 '#' (by decide)).2.2.2.1.trans (by decide),
    (newlinesThen_call 2147483647 '#' (by decide)).2.2.2.2.trans wrapInt_two_pow_31⟩

/-- Claim C5, amended. Unknown characters are data: when the first non-whitespace
character `c` at or after the cursor of a reachable state is not an ASCII
letter, not an ASCII digit and not one of `+`, `=`, `;`, `nextToken` returns
the token `Unknown` with the one-character text `c`, whose line and column are
the `int` values of the line and column of `c`, and the new state has its
cursor just after `c` (same line, next column), where the following call
resumes; when the source is shorter than `2^31 - 1` characters these `int`
values are the line and column themselves.  `"#"` gives `Unknown "#"` at
(1,1), then `EndOfFile` at (1,2); in `"#@ x"` scanning continues after each
unknown character. -/
theorem unknown_character_token :
    (∀ (src : List Char) (l : Lexer), Reachable src l →
      ∀ s : Nat, FirstNonSpaceAt src l.pos s →
      ∀ c : Char, src[s]? = some c → isalpha c = false → isdigit c = false →
        c ≠ '+' → c ≠ '=' → c ≠ ';' →
        l.nextToken.1 =
          { type := TokenType.Unknown,
            value := [c],
            line := wrapInt ((1 + (src.take s).count '\n' : Nat) : Int),
            column := wrapInt ((1 + charsAfterLastNewline (src.take s) : Nat) : Int) } ∧
        l.nextToken.2 =
          { source := src,
            pos := s + 1,
            line := wrapInt ((1 + (src.take s).count '\n' : Nat) : Int),
            column := wrapInt ((1 + charsAfterLastNewline (src.take s) + 1 : Nat) : Int) } ∧
        (src.length < 2147483647 →
          l.nextToken.1 =
            { type := TokenType.Unknown,
              value := [c],
              line := ((1 + (src.take s).count '\n' : Nat) : Int),
              column := ((1 + charsAfterLastNewline (src.take s) : Nat) : Int) } ∧
          l.nextToken.2 =
            { source := src,
              pos := s + 1,
              line := ((1 + (src.take s).count '\n' : Nat) : Int),
              column := ((1 + charsAfterLastNewline (src.take s) + 1 : Nat) : Int) })) ∧
    (List.range 2).map (tokenAt "#".toList) =
      [{ type := TokenType.Unknown, value := "#".toList, line := 1, column := 1 },
       { type := TokenType.EndOfFile, value := [], line := 1, column := 2 }] ∧
    (List.range 4).map (tokenAt "#@ x".toList) =
      [{ type := TokenType.Unknown, value := "#".toList, line := 1, column := 1 },
       { type := TokenType.Unknown, value := "@".toList, line := 1, column := 2 },
       { type := TokenType.Identifier, value := "x".toList, line := 1, column := 4 },
       { type := TokenType.EndOfFile, value := [], line := 1, column := 5 }] := by
  refine ⟨?_, by decide, by decide⟩
  intro src l hl s hs c hc ha hd h1 h2 h3
  have hty : (if c = '+' then TokenType.Plus else if c = '=' then TokenType.Equal
      else if c = ';' then TokenType.Semicolon else TokenType.Unknown) = TokenType.Unknown := by
    simp [h1, h2, h3]
  rw [nextToken_single_char hl hs hc ha hd, hty]
  refine ⟨rfl, rfl, fun hlen => ?_⟩
  obtain ⟨e1, e2, e3⟩ := single_char_exact hc hlen
  rw [e1, e2, e3]
  exact ⟨rfl, rfl⟩

/-- Witness for C5: in `"a\n $b"` after the first call the first non-whitespace
character is `$` at offset 3, on line 2, column 2. -/
theorem unknown_character_token_witness :
    Reachable "a\n $b".toList (lexerAfter "a\n $b".toList 1) ∧
    FirstNonSpaceAt "a\n $b".toList (lexerAfter "a\n $b".toList 1).pos 3 ∧
    "a\n $b".toList[3]? = some '$' ∧
    "a\n $b".toList.length < 2147483647 ∧
    (lexerAfter "a\n $b".toList 1).nextToken.1 =
      { type := TokenType.Unknown, value := ['$'], line := 2, column := 2 } ∧
    (lexerAfter "a\n $b".toList 1).nextToken.2 =
      { source := "a\n $b".toList, pos := 4, line := 2, column := 3 } :=
  ⟨reachable_lexerAfter _ 1, by decide, by decide, by decide,
    (unknown_character_token.1 "a\n $b".toList _ (reachable_lexerAfter _ 1) 3 (by decide) '$'
      (by decide) (by decide) (by decide) (by decide) (by decide) (by decide)).2.2 (by decide)⟩

/-- Counterexample to C6 as stated: on `2^31 - 1` newlines followed by `+`, the
first non-whitespace character is `+`, at offset `2^31 - 1`; one plus the
number of newlines before it is `2^31`, and the line of the token is `-2^31`. -/
theorem operator_position_counterexample :
    Reachable (newlinesThen 2147483647 '+') (Lexer.new (newlinesThen 2147483647 '+')) ∧
    FirstNonSpaceAt (newlinesThen 2147483647 '+') (Lexer.new (newlinesThen 2147483647 '+')).pos
      2147483647 ∧
    (newlinesThen 2147483647 '+')[2147483647]? = some '+' ∧
    1 + ((newlinesThen 2147483647 '+').take 2147483647).count '\n' = 2147483648 ∧
    (Lexer.new (newlinesThen 2147483647 '+')).nextToken.1.line = -2147483648 :=
  ⟨(newlinesThen_call 2147483647 '+' (by decide)).1,
    (newlinesThen_call 2147483647 '+' (by decide)).2.1,
    (newlinesThen_call 2147483647 '+' (by decide)).2.2.1,
    (newlinesThen_call 2147483647 '+' (by decide)).2.2.2.1.trans (by decide),
    (newlinesThen_call 2147483647 '+' (by decide)).2.2.2.2.trans wrapInt_two_pow_31⟩

/-- Claim C6, amended. Single-character operators: when the first non-whitespace
character at or after the cursor of a reachable state is `+`, `=` or `;`,
`nextToken` returns a token of kind `Plus`, `Equal` or `Semicolon`
respectively, whose text is that one character and whose line and column are
the `int` values of the character's line and column, and the cursor moves
exactly one character past it; when the source is shorter than `2^31 - 1`
characters these `int` values are the line and column themselves.  `"=="` and
`"++"` give two one-character tokens each. -/
theorem single_character_operators :
    (∀ (src : List Char) (l : Lexer), Reachable src l →
      ∀ s : Nat, FirstNonSpaceAt src l.pos s →
      ∀ c : Char, src[s]? = some c → (c = '+' ∨ c = '=' ∨ c = ';') →
        l.nextToken.1 =
          { type := if c = '+' then TokenType.Plus
                    else if c = '=' then TokenType.Equal else TokenType.Semicolon,
            value := [c],
            line := wrapInt ((1 + (src.take s).count '\n' : Nat) : Int),
            column := wrapInt ((1 + charsAfterLastNewline (src.take s) : Nat) : Int) } ∧
        l.nextToken.2 =
          { source := src,
            pos := s + 1,
            line := wrapInt ((1 + (src.take s).count '\n' : Nat) : Int),
            column := wrapInt ((1 + charsAfterLastNewline (src.take s) + 1 : Nat) : Int) } ∧
        (src.length < 2147483647 →
          l.nextToken.1 =
            { type := if c = '+' then TokenType.Plus
                      else if c = '=' then TokenType.Equal else TokenType.Semicolon,
              value := [c],
              line := ((1 + (src.take s).count '\n' : Nat) : Int),
              column := ((1 + charsAfterLastNewline (src.take s) : Nat) : Int) } ∧
          l.nextToken.2 =
            { source := src,
              pos := s + 1,
              line := ((1 + (src.take s).count '\n' : Nat) : Int),
              column := ((1 + charsAfterLastNewline (src.take s) + 1 : Nat) : Int) })) ∧
    (List.range 3).map (tokenAt "==".toList) =
      [{ type := TokenType.Equal, value := "=".toList, line := 1, column := 1 },
       { type := TokenType.Equal, value := "=".toList, line := 1, column := 2 },
       { type := TokenType.EndOfFile, value := [], line := 1, column := 3 }] ∧
    (List.range 3).map (tokenAt "++".toList) =
      [{ type := TokenType.Plus, value := "+".toList, line := 1, column := 1 },
       { type := TokenType.Plus, value := "+".toList, line := 1, column := 2 },
       { type := TokenType.EndOfFile, value := [], line := 1, column := 3 }] ∧
    (List.range 4).map (tokenAt "+=;".toList) =
      [{ type := TokenType.Plus, value := "+".toList, line := 1, column := 1 },
       { type := TokenType.Equal, value := "=".toList, line := 1, column := 2 },
       { type := TokenType.Semicolon, value := ";".toList, line := 1, column := 3 },
       { type := TokenType.EndOfFile, value := [], line := 1, column := 4 }] := by
  refine ⟨?_, by decide, by decide, by decide⟩
  intro src l hl s hs c hc hop
  have ha : isalpha c = false := by rcases hop with rfl | rfl | rfl <;> decide
  have hd : isdigit c = false := by rcases hop with rfl | rfl | rfl <;> decide
  have hty : (if c = '+' then TokenType.Plus else if c = '=' then TokenType.Equal
      else if c = ';' then TokenType.Semicolon else TokenType.Unknown) =
      (if c = '+' then TokenType.Plus
        else if c = '=' then TokenType.Equal else TokenType.Semicolon) := by
    rcases hop with rfl | rfl | rfl <;> decide
  rw [nextToken_single_char hl hs hc ha hd, hty]
  refine ⟨rfl, rfl, fun hlen => ?_⟩
  obtain ⟨e1, e2, e3⟩ := single_char_exact hc hlen
  rw [e1, e2, e3]
  exact ⟨rfl, rfl⟩

/-- Witness for C6: in `"x =\n;"` after two calls the first non-whitespace
character is `;` at offset 4, on line 2, column 1. -/
theorem single_character_operators_witness :
    Reachable "x =\n;".toList (lexerAfter "x =\n;".toList 2) ∧
    FirstNonSpaceAt "x =\n;".toList (lexerAfter "x =\n;".toList 2).pos 4 ∧
    "x =\n;".toList[4]? = some ';' ∧
    "x =\n;".toList.length < 2147483647 ∧
    (lexerAfter "x =\n;".toList 2).nextToken.1 =
      { type := TokenType.Semicolon, value := [';'], line := 2, column := 1 } ∧
    (lexerAfter "x =\n;".toList 2).nextToken.2 =
      { source := "x =\n;".toList, pos := 5, line := 2, column := 2 } :=
  ⟨reachable_lexerAfter _ 2, by decide, by decide, by decide,
    (single_character_operators.1 "x =\n;".toList _ (reachable_lexerAfter _ 2) 4 (by decide) ';'
      (by decide) (by decide)).2.2 (by decide)⟩

/-! ## End of input -/

/-- At the end of the input `skipWhitespace` does nothing and `nextToken` returns
`EndOfFile` at the current position without changing the state. -/
theorem nextToken_at_end {l : Lexer} (h : rest l = []) :
    l.skipWhitespace = l ∧
    l.nextToken =
      ({ type := TokenType.EndOfFile, value := [], line := l.line, column := l.column }, l) := by
  have hskip : l.skipWhitespace = l := by
    rw [skipWhitespace_eq, h]
    rfl
  refine ⟨hskip, ?_⟩
  rw [nextToken_eof (by rw [hskip]; exact h), hskip]

theorem nextToken_eof_result {l : Lexer} (h : l.nextToken.1.type = TokenType.EndOfFile) :
    rest l.nextToken.2 = [] ∧
    l.nextToken.1 =
      { type := TokenType.EndOfFile,
        value := [],
        line := l.nextToken.2.line,
        column := l.nextToken.2.column } := by
  have hr := (nextToken_shape l).2.2.2.2.1.mp h
  rw [nextToken_eof hr]
  exact ⟨hr, rfl⟩

theorem callsFrom_at_end {l : Lexer} (h : rest l = []) (n : Nat) : callsFrom l n = l := by
  induction n with
  | zero => rfl
  | succ n ih => rw [callsFrom, ih, (nextToken_at_end h).2]

theorem callsFrom_shift (l : Lexer) (n : Nat) :
    callsFrom l (n + 1) = callsFrom l.nextToken.2 n := by
  induction n with
  | zero => rfl
  | succ n ih => rw [callsFrom, ih, callsFrom]

theorem callsFrom_add (l : Lexer) (m n : Nat) :
    callsFrom l (m + n) = callsFrom (callsFrom l m) n := by
  induction n with
  | zero => rfl
  | succ n ih => rw [← Nat.add_assoc, callsFrom, ih, callsFrom]

/-- Claim C7. Idempotence at end of input: if a call of `nextToken` returns
`EndOfFile`, its text is empty, and every later call (after any number `n` of
further calls) returns the same token, that is `EndOfFile` with empty text and
the same line and column, and leaves the scanner state unchanged.  This holds
from every state, in particular from every reachable one. -/
theorem endOfInput_idempotent (l : Lexer) (h : l.nextToken.1.type = TokenType.EndOfFile)
    (n : Nat) :
    l.nextToken.1.value = [] ∧
    callsFrom l.nextToken.2 n = l.nextToken.2 ∧
    (callsFrom l.nextToken.2 n).nextToken.1 = l.nextToken.1 ∧
    (callsFrom l.nextToken.2 n).nextToken.2 = l.nextToken.2 := by
  obtain ⟨hr, htok⟩ := nextToken_eof_result h
  have hcalls := callsFrom_at_end hr n
  have hnext := (nextToken_at_end hr).2
  refine ⟨by rw [htok], hcalls, ?_, ?_⟩
  · rw [hcalls, hnext]
    exact htok.symm
  · rw [hcalls, hnext]

/-- Witness for C7: on `"x \n"` the second call returns `EndOfFile` at (2,1);
three calls later the state is the same and the token is the same. -/
theorem endOfInput_idempotent_witness :
    (lexerAfter "x \n".toList 1).nextToken.1 =
      { type := TokenType.EndOfFile, value := [], line := 2, column := 1 } ∧
    ((lexerAfter "x \n".toList 1).nextToken.1.value = [] ∧
    callsFrom (lexerAfter "x \n".toList 1).nextToken.2 3 =
      (lexerAfter "x \n".toList 1).nextToken.2 ∧
    (callsFrom (lexerAfter "x \n".toList 1).nextToken.2 3).nextToken.1 =
      (lexerAfter "x \n".toList 1).nextToken.1 ∧
    (callsFrom (lexerAfter "x \n".toList 1).nextToken.2 3).nextToken.2 =
      (lexerAfter "x \n".toList 1).nextToken.2) :=
  ⟨by decide, endOfInput_idempotent (lexerAfter "x \n".toList 1) (by decide) 3⟩

/-! ## Whitespace-only input -/

theorem rest_new (src : List Char) : rest (Lexer.new src) = src := by
  simp [rest, Lexer.new]

theorem tokenAt_of_eof_first {src : List Char}
    (h : (Lexer.new src).nextToken.1.type = TokenType.EndOfFile) (n : Nat) :
    tokenAt src n = (Lexer.new src).nextToken.1 := by
  cases n with
  | zero => rfl
  | succ n =>
    obtain ⟨hr, -⟩ := nextToken_eof_result h
    rw [tokenAt, lexerAfter, callsFrom_shift, callsFrom_at_end hr, (nextToken_at_end hr).2]
    exact (nextToken_eof_result h).2.symm

/-- Claim C8. For every input made only of whitespace characters (space, tab,
newline, carriage return, vertical tab, form feed), the empty input included,
the first token returned on a fresh scanner is `EndOfFile` with empty text, and
so is every later one (no other kind is ever produced, and `main` prints no
token); for the empty input that `EndOfFile` is at line 1, column 1. -/
theorem whitespace_only_input (src : List Char)
    (h : ∀ c ∈ src, c = ' ' ∨ c = '\t' ∨ c = '\n' ∨ c = '\r' ∨ c = '\x0b' ∨ c = '\x0c') :
    (∀ n : Nat, (tokenAt src n).type = TokenType.EndOfFile ∧ (tokenAt src n).value = []) ∧
    (∀ fuel : Nat, mainTokens (fuel + 1) src = some []) ∧
    tokenAt [] 0 = { type := TokenType.EndOfFile, value := [], line := 1, column := 1 } := by
  have hsp : ∀ c ∈ src, isspace c = true := by
    intro c hc
    rcases h c hc with rfl | rfl | rfl | rfl | rfl | rfl <;> decide
  have hr : rest (Lexer.new src).skipWhitespace = [] := by
    rw [rest_skipWhitespace, rest_new, List.dropWhile_eq_nil_iff]
    exact hsp
  have h0 : (Lexer.new src).nextToken.1.type = TokenType.EndOfFile := by
    rw [nextToken_eof hr]
  refine ⟨?_, ?_, by decide⟩
  · intro n
    rw [tokenAt_of_eof_first h0 n, nextToken_eof hr]
    exact ⟨rfl, rfl⟩
  · intro fuel
    simp [mainTokens, tokenLoop, h0]

/-- Witness for C8: the input made of space, tab, newline, carriage return,
vertical tab and form feed. -/
theorem whitespace_only_input_witness :
    (∀ n : Nat, (tokenAt " \t\n\r\x0b\x0c".toList n).type = TokenType.EndOfFile ∧
      (tokenAt " \t\n\r\x0b\x0c".toList n).value = []) ∧
    (∀ fuel : Nat, mainTokens (fuel + 1) " \t\n\r\x0b\x0c".toList = some []) ∧
    tokenAt [] 0 = { type := TokenType.EndOfFile, value := [], line := 1, column := 1 } :=
  whitespace_only_input " \t\n\r\x0b\x0c".toList (by decide)

/-! ## Termination -/

/-- After a `takeWhile` run the loop guard is false. -/
theorem guard_false_after_run (p : Char → Bool) (l : Lexer) :
    (!(advanceN ((rest l).takeWhile p).length l).isAtEnd &&
      p (advanceN ((rest l).takeWhile p).length l).peek) = false := by
  match hr : rest (advanceN ((rest l).takeWhile p).length l) with
  | [] => simp [rest_nil hr]
  | c :: cs =>
    obtain ⟨-, hpeek, -, -, -⟩ := rest_cons hr
    rw [rest_advanceN, drop_length_takeWhile] at hr
    have := List.head_dropWhile_not p (rest l) (by simp [hr])
    simp only [hr, List.head_cons] at this
    simp [hpeek, this]

theorem advance_measure_decreases (l : Lexer) (h : l.isAtEnd = false) :
    l.advance.2.source.length - l.advance.2.pos < l.source.length - l.pos := by
  have : l.pos < l.source.length := by simpa [isAtEnd] using h
  rw [advance_source, advance_pos]
  omega

/-- A call that does not return `EndOfFile` moves the cursor forward. -/
theorem nextToken_pos_lt {l : Lexer} (hpos : l.pos ≤ l.source.length)
    (h : l.nextToken.1.type ≠ TokenType.EndOfFile) : l.pos < l.nextToken.2.pos := by
  obtain ⟨-, -, -, -, h5, h6⟩ := nextToken_shape l
  have hne : l.nextToken.1.value ≠ [] := fun hv => h (h5.mpr (h6.mp hv))
  have hlen : 0 < l.nextToken.1.value.length := List.length_pos.mpr hne
  have := skipWhitespace_pos_le l hpos
  rw [nextToken_pos]
  omega

theorem pos_ge_of_no_eof (src : List Char) (n : Nat)
    (h : ∀ j < n, (tokenAt src j).type ≠ TokenType.EndOfFile) : n ≤ (lexerAfter src n).pos := by
  induction n with
  | zero => exact Nat.zero_le _
  | succ n ih =>
    have ih := ih (fun j hj => h j (by omega))
    obtain ⟨hsrc, hle, -⟩ := reachable_inv (reachable_lexerAfter src n)
    have := nextToken_pos_lt (by rw [hsrc]; exact hle) (h n (by omega))
    simp only [lexerAfter, callsFrom] at *
    omega

theorem exists_eof (src : List Char) :
    ∃ k, k ≤ src.length ∧ (tokenAt src k).type = TokenType.EndOfFile ∧
      ∀ j < k, (tokenAt src j).type ≠ TokenType.EndOfFile := by
  have hex : ∃ k, (tokenAt src k).type = TokenType.EndOfFile := by
    by_contra hno
    have hall : ∀ j, (tokenAt src j).type ≠ TokenType.EndOfFile := fun j hj => hno ⟨j, hj⟩
    have h1 := pos_ge_of_no_eof src (src.length + 1) (fun j _ => hall j)
    have h2 := (reachable_inv (reachable_lexerAfter src (src.length + 1))).2.1
    omega
  refine ⟨Nat.find hex, ?_, Nat.find_spec hex, fun j hj => Nat.find_min hex hj⟩
  have h1 := pos_ge_of_no_eof src (Nat.find hex) (fun j hj => Nat.find_min hex hj)
  have h2 := (reachable_inv (reachable_lexerAfter src (Nat.find hex))).2.1
  omega

theorem tokenLoop_spec (k : Nat) (l : Lexer) (fuel : Nat) (hf : k < fuel)
    (hk : (callsFrom l k).nextToken.1.type = TokenType.EndOfFile)
    (hlt : ∀ j < k, (callsFrom l j).nextToken.1.type ≠ TokenType.EndOfFile) :
    tokenLoop fuel l.nextToken.2 l.nextToken.1 =
      some ((List.range k).map (fun j => (callsFrom l j).nextToken.1)) := by
  induction k generalizing l fuel with
  | zero =>
    obtain ⟨f, rfl⟩ : ∃ f, fuel = f + 1 := ⟨fuel - 1, by omega⟩
    have : l.nextToken.1.type = TokenType.EndOfFile := hk
    simp [tokenLoop, this]
  | succ k ih =>
    obtain ⟨f, rfl⟩ : ∃ f, fuel = f + 1 := ⟨fuel - 1, by omega⟩
    have h0 : l.nextToken.1.type ≠ TokenType.EndOfFile := hlt 0 (by omega)
    have := ih l.nextToken.2 f (by omega) (by rw [← callsFrom_shift]; exact hk)
      (fun j hj => by rw [← callsFrom_shift]; exact hlt (j + 1) (by omega))
    simp only [tokenLoop, h0, ne_eq, not_false_eq_true, if_true, this, Option.map_some']
    rw [List.range_succ_eq_map]
    have hz : callsFrom l 0 = l := rfl
    simp [callsFrom_shift, hz, Function.comp_def]

/-- Claim C9. Termination bounded by the input length.
Each loop of a `nextToken` call strictly decreases `length - pos` at every
iteration, run with `length - pos` units of fuel it stops with its guard false
(so the fuel is not what stops it), and more fuel gives the same result.
On a source of length `n`, calling `nextToken` repeatedly from the initial state
returns `EndOfFile` at some call `k ≤ n` (counting from 0), after exactly `k`
tokens that are not `EndOfFile`, hence within `n + 1` calls; and the token loop
of `main` stops, having printed at most `n` tokens, as soon as it is given
`n + 1` units of fuel. -/
theorem termination_bounded_by_length :
    (∀ l : Lexer, l.isAtEnd = false →
      l.advance.2.source.length - l.advance.2.pos < l.source.length - l.pos) ∧
    (∀ l : Lexer,
      (!l.skipWhitespace.isAtEnd && isspace l.skipWhitespace.peek) = false ∧
      (!(identifierLoop (l.source.length - l.pos) l []).2.isAtEnd &&
        (isalnum (identifierLoop (l.source.length - l.pos) l []).2.peek ||
          decide ((identifierLoop (l.source.length - l.pos) l []).2.peek = '_'))) = false ∧
      (!(numberLoop (l.source.length - l.pos) l []).2.isAtEnd &&
        isdigit (numberLoop (l.source.length - l.pos) l []).2.peek) = false) ∧
    (∀ (l : Lexer) (n : Nat) (value : List Char), l.source.length - l.pos ≤ n →
      skipWhitespaceLoop n l = skipWhitespaceLoop (l.source.length - l.pos) l ∧
      identifierLoop n l value = identifierLoop (l.source.length - l.pos) l value ∧
      numberLoop n l value = numberLoop (l.source.length - l.pos) l value) ∧
    (∀ src : List Char, ∃ k, k ≤ src.length ∧
      (tokenAt src k).type = TokenType.EndOfFile ∧
      (∀ j < k, (tokenAt src j).type ≠ TokenType.EndOfFile) ∧
      ∀ fuel, src.length + 1 ≤ fuel →
        mainTokens fuel src = some ((List.range k).map (tokenAt src))) := by
  refine ⟨advance_measure_decreases, ?_, ?_, ?_⟩
  · intro l
    refine ⟨?_, ?_, ?_⟩
    · rw [skipWhitespace_eq]
      exact guard_false_after_run isspace l
    · rw [identifierLoop_eq, scanWhile_spec _ _ _ _ (rest_length l).le]
      exact guard_false_after_run isIdentChar l
    · rw [numberLoop_eq, scanWhile_spec _ _ _ _ (rest_length l).le]
      exact guard_false_after_run isdigit l
  · intro l n value hn
    have hn2 : (rest l).length ≤ n := by rw [rest_length]; exact hn
    refine ⟨?_, ?_, ?_⟩
    · rw [skipWhitespaceLoop_eq _ _ [], skipWhitespaceLoop_eq _ _ [], scanWhile_spec _ _ _ _ hn2,
        scanWhile_spec _ _ _ _ (rest_length l).le]
    · rw [identifierLoop_eq, identifierLoop_eq, scanWhile_spec _ _ _ _ hn2,
        scanWhile_spec _ _ _ _ (rest_length l).le]
    · rw [numberLoop_eq, numberLoop_eq, scanWhile_spec _ _ _ _ hn2,
        scanWhile_spec _ _ _ _ (rest_length l).le]
  · intro src
    obtain ⟨k, hk, heof, hlt⟩ := exists_eof src
    refine ⟨k, hk, heof, hlt, ?_⟩
    intro fuel hfuel
    exact tokenLoop_spec k (Lexer.new src) fuel (by omega) heof hlt

/-! ## The cursor -/

/-- Before the end of the input `advance` returns the source character under the
cursor. -/
theorem advance_reads_source (l : Lexer) (h : l.pos < l.source.length) :
    l.isAtEnd = false ∧ l.source[l.pos]? = some l.advance.1 := by
  have hget : l.source[l.pos]? = some l.source[l.pos] := List.getElem?_eq_getElem h
  obtain ⟨hend, hpeek, -, -, -⟩ := rest_cons (rest_of_getElem? hget)
  rw [advance_fst, hpeek]
  exact ⟨hend, hget⟩

/-- The state after `nextToken` is the state before it advanced as many times as
the cursor moved. -/
theorem nextToken_eq_advanceN (l : Lexer) (h : l.pos ≤ l.source.length) :
    l.pos ≤ l.nextToken.2.pos ∧
    l.nextToken.2 = advanceN (l.nextToken.2.pos - l.pos) l := by
  have hpos := nextToken_pos l
  have hstate := (nextToken_shape l).2.2.1
  have hskip := skipWhitespace_eq l
  have hle := skipWhitespace_pos_le l h
  have hk : l.nextToken.2.pos - l.pos =
      ((rest l).takeWhile isspace).length + l.nextToken.1.value.length := by
    rw [hpos, hskip, advanceN_pos]
    omega
  refine ⟨by omega, ?_⟩
  rw [hk, advanceN_add, ← hskip]
  exact hstate

/-- Claim C10. Cursor monotonicity and bound: in every reachable state
`pos ≤ length`; a `nextToken` call never moves the cursor backwards, moves it
strictly forwards when the token is not `EndOfFile`, and leaves it at most at
the length.  The only state change in the code is `advance`, which adds one to
`pos`, so the `advance` calls of a `nextToken` call that starts in `l` are made
in the states `advanceN j l` for `j` below the distance the cursor moves: each
of them is made with `pos < length`, not at the end, and returns the source
character under the cursor rather than the `'\0'` of `peek`. -/
theorem cursor_monotone_and_bounded (src : List Char) (l : Lexer) (hl : Reachable src l) :
    l.pos ≤ src.length ∧
    l.pos ≤ l.nextToken.2.pos ∧
    l.nextToken.2.pos ≤ src.length ∧
    (l.nextToken.1.type ≠ TokenType.EndOfFile → l.pos < l.nextToken.2.pos) ∧
    l.nextToken.2 = advanceN (l.nextToken.2.pos - l.pos) l ∧
    ∀ j < l.nextToken.2.pos - l.pos,
      (advanceN j l).pos < src.length ∧
      (advanceN j l).isAtEnd = false ∧
      src[(advanceN j l).pos]? = some (advanceN j l).advance.1 := by
  obtain ⟨hsrc, hle, -⟩ := reachable_inv hl
  subst hsrc
  obtain ⟨h1, h2⟩ := nextToken_eq_advanceN l hle
  have h3 := nextToken_pos_le l hle
  refine ⟨hle, h1, h3, fun h => nextToken_pos_lt hle h, h2, ?_⟩
  intro j hj
  have hpj : (advanceN j l).pos < (advanceN j l).source.length := by
    rw [advanceN_pos, advanceN_source]
    omega
  obtain ⟨h4, h5⟩ := advance_reads_source (advanceN j l) hpj
  rw [advanceN_source] at hpj h5
  exact ⟨hpj, h4, h5⟩

/-- Witness for C10: on `"a  bc"` the second call moves the cursor from 1 to 5
with four `advance` calls, the last of them at offset 4, which reads `c`. -/
theorem cursor_monotone_and_bounded_witness :
    Reachable "a  bc".toList (lexerAfter "a  bc".toList 1) ∧
    (lexerAfter "a  bc".toList 1).pos = 1 ∧
    (lexerAfter "a  bc".toList 1).nextToken.2.pos = 5 ∧
    (advanceN 3 (lexerAfter "a  bc".toList 1)).advance.1 = 'c' ∧
    (advanceN 3 (lexerAfter "a  bc".toList 1)).pos < "a  bc".toList.length :=
  ⟨reachable_lexerAfter _ 1, by decide, by decide, by decide,
    ((cursor_monotone_and_bounded "a  bc".toList _ (reachable_lexerAfter _ 1)).2.2.2.2.2 3
      (by decide)).1⟩

/-! ## Tokens as a function of the unread input -/

theorem lexer_ext {a b : Lexer} (h1 : a.source = b.source) (h2 : a.pos = b.pos)
    (h3 : a.line = b.line) (h4 : a.column = b.column) : a = b := by
  cases a
  cases b
  simp only [Lexer.mk.injEq]
  exact ⟨h1, h2, h3, h4⟩

/-- The kind and the text of the token returned by `nextToken` are `tokenOf` of
the input left by `skipWhitespace`. -/
theorem nextToken_tokenOf (l : Lexer) :
    l.nextToken.1.type = (tokenOf (rest l.skipWhitespace)).1 ∧
    l.nextToken.1.value = (tokenOf (rest l.skipWhitespace)).2 := by
  match hr : rest l.skipWhitespace with
  | [] =>
    rw [nextToken_eof hr]
    exact ⟨rfl, rfl⟩
  | c :: cs =>
    by_cases ha : isalpha c = true
    · rw [nextToken_alpha hr ha, identifier_eq, hr]
      simp [tokenOf, ha]
    · by_cases hd : isdigit c = true
      · rw [nextToken_digit hr hd, number_eq, hr]
        simp [tokenOf, ha, hd]
      · rw [nextToken_other hr (by simpa using ha) (by simpa using hd)]
        simp [tokenOf, ha, hd]

theorem tokenOf_no_space (xs : List Char) (h : ∀ c ∈ xs.head?, isspace c = false) :
    ∀ c ∈ (tokenOf xs).2, isspace c = false := by
  match xs with
  | [] => simp [tokenOf]
  | c :: cs =>
    have hc : isspace c = false := h c (by simp)
    by_cases ha : isalpha c = true
    · simp only [tokenOf, ha, if_true]
      intro d hd
      exact isIdentChar_not_isspace (List.mem_takeWhile_imp hd)
    · by_cases hd : isdigit c = true
      · simp only [tokenOf, ha, hd, if_true]
        intro d hd2
        exact isdigit_not_isspace (List.mem_takeWhile_imp hd2)
      · simp only [tokenOf, ha, hd]
        intro d hd2
        simp at hd2
        rw [hd2]
        exact hc

theorem head?_skipWhitespace (l : Lexer) :
    ∀ c ∈ (rest l.skipWhitespace).head?, isspace c = false := by
  intro c hc
  match hr : rest l.skipWhitespace with
  | [] => simp [hr] at hc
  | d :: ds =>
    simp [hr] at hc
    rw [← hc]
    exact rest_skipWhitespace_head hr

/-- The text of a token holds no whitespace. -/
theorem nextToken_value_no_space (l : Lexer) :
    ∀ c ∈ l.nextToken.1.value, isspace c = false := by
  rw [(nextToken_tokenOf l).2]
  exact tokenOf_no_space _ (head?_skipWhitespace l)

/-- The state after `nextToken`, field by field. -/
theorem nextToken_state (l : Lexer) :
    l.nextToken.2 =
      { source := l.source,
        pos := l.skipWhitespace.pos + l.nextToken.1.value.length,
        line := l.skipWhitespace.line,
        column := incN l.nextToken.1.value.length l.skipWhitespace.column } := by
  have hshape := nextToken_shape l
  have hlen := nextToken_value_length_le l
  have hnl := advanceN_no_newline l.nextToken.1.value.length l.skipWhitespace hlen (by
    rw [← hshape.2.2.2.1]
    intro c hc
    exact ne_newline_of_not_isspace (nextToken_value_no_space l c hc))
  rw [← hshape.2.2.1] at hnl
  exact lexer_ext (nextToken_source l) (nextToken_pos l) hnl.1 hnl.2

/-- When the unread input does not start with whitespace, `skipWhitespace` does
nothing and the token is read off the current state. -/
theorem nextToken_of_head {l : Lexer} (h : ∀ c ∈ (rest l).head?, isspace c = false) :
    l.nextToken =
      ({ type := (tokenOf (rest l)).1,
         value := (tokenOf (rest l)).2,
         line := l.line,
         column := l.column },
       { source := l.source,
         pos := l.pos + (tokenOf (rest l)).2.length,
         line := l.line,
         column := incN (tokenOf (rest l)).2.length l.column }) := by
  have htw : (rest l).takeWhile isspace = [] := by
    match hr : rest l with
    | [] => rfl
    | c :: cs =>
      have : isspace c = false := h c (by simp [hr])
      simp [List.takeWhile_cons, this]
  have hskip : l.skipWhitespace = l := by
    rw [skipWhitespace_eq, htw]
    rfl
  have hstate := nextToken_state l
  obtain ⟨h1, h2⟩ := nextToken_tokenOf l
  obtain ⟨h3, h4, -⟩ := nextToken_shape l
  rw [hskip] at hstate h1 h2 h3 h4
  rw [h2] at hstate
  have htok : l.nextToken.1 =
      { type := (tokenOf (rest l)).1, value := (tokenOf (rest l)).2, line := l.line,
        column := l.column } := by
    cases ht : l.nextToken.1
    rw [ht] at h1 h2 h3 h4
    simp only at h1 h2 h3 h4
    rw [h1, h2, h3, h4]
  exact Prod.ext htok hstate

/-! ## Concatenation -/

theorem takeWhile_of_head_neg (p : Char → Bool) (xs : List Char)
    (h : ∀ b ∈ xs.head?, p b = false) : xs.takeWhile p = [] := by
  match xs with
  | [] => rfl
  | b :: bs =>
    have : p b = false := h b (by simp)
    simp [List.takeWhile_cons, this]

theorem takeWhile_append_of_eq_self (p : Char → Bool) (xs ys : List Char)
    (h : xs.takeWhile p = xs) : (xs ++ ys).takeWhile p = xs ++ ys.takeWhile p := by
  apply List.takeWhile_append_of_pos
  intro a ha
  rw [← h] at ha
  exact List.mem_takeWhile_imp ha

/-- A string that is scanned as one token which is the whole string: it holds no
whitespace, and its kind and text are `tokenOf` of the string. -/
theorem single_token_facts {A : List Char}
    (h2 : (tokenAt A 0).value = A) :
    (∀ c ∈ A, isspace c = false) ∧
    (tokenOf A).1 = (tokenAt A 0).type ∧ (tokenOf A).2 = A := by
  have hns : ∀ c ∈ A, isspace c = false := by
    intro c hc
    rw [← h2] at hc
    exact nextToken_value_no_space _ c hc
  have hhead : ∀ c ∈ (rest (Lexer.new A)).head?, isspace c = false := by
    rw [rest_new]
    intro c hc
    exact hns c (List.mem_of_mem_head? hc)
  have hnt := nextToken_of_head hhead
  rw [rest_new] at hnt
  have htok : tokenAt A 0 = (Lexer.new A).nextToken.1 := rfl
  rw [htok, hnt] at h2
  rw [htok, hnt]
  exact ⟨hns, rfl, h2⟩

theorem tokenOf_alpha {c : Char} (cs : List Char) (ha : isalpha c = true) :
    tokenOf (c :: cs) =
      (if (c :: cs).takeWhile isIdentChar = ['l', 'e', 't'] then TokenType.Let
       else TokenType.Identifier,
       (c :: cs).takeWhile isIdentChar) := by
  simp [tokenOf, ha]

theorem tokenOf_digit {c : Char} (cs : List Char) (ha : isalpha c = false)
    (hd : isdigit c = true) :
    tokenOf (c :: cs) = (TokenType.Number, (c :: cs).takeWhile isdigit) := by
  simp [tokenOf, ha, hd]

theorem tokenOf_other {c : Char} (cs : List Char) (ha : isalpha c = false)
    (hd : isdigit c = false) :
    tokenOf (c :: cs) =
      (if c = '+' then TokenType.Plus else if c = '=' then TokenType.Equal
       else if c = ';' then TokenType.Semicolon else TokenType.Unknown,
       [c]) := by
  simp [tokenOf, ha, hd]

theorem tokenOf_other_type {c : Char} (cs : List Char) (ha : isalpha c = false)
    (hd : isdigit c = false) :
    (tokenOf (c :: cs)).1 ≠ TokenType.Let ∧ (tokenOf (c :: cs)).1 ≠ TokenType.Identifier ∧
    (tokenOf (c :: cs)).1 ≠ TokenType.Number ∧ (tokenOf (c :: cs)).1 ≠ TokenType.EndOfFile := by
  rw [tokenOf_other cs ha hd]
  dsimp only
  split
  · simp
  · split
    · simp
    · split <;> simp

/-- With an unambiguous boundary the first token of `A ++ B` is that of `A`. -/
theorem tokenOf_append {A B : List Char} (hA : (tokenOf A).2 = A) (hne : A ≠ [])
    (hid : (tokenOf A).1 = TokenType.Let ∨ (tokenOf A).1 = TokenType.Identifier →
      ∀ b ∈ B.head?, isIdentChar b = false)
    (hnum : (tokenOf A).1 = TokenType.Number → ∀ b ∈ B.head?, isdigit b = false) :
    tokenOf (A ++ B) = tokenOf A := by
  match A, hne with
  | c :: cs, _ =>
    by_cases ha : isalpha c = true
    · rw [tokenOf_alpha cs ha] at hA hid
      rw [List.cons_append, tokenOf_alpha cs ha, tokenOf_alpha (cs ++ B) ha]
      have hB := takeWhile_of_head_neg isIdentChar B (hid (by dsimp only; split <;> simp))
      have := takeWhile_append_of_eq_self isIdentChar (c :: cs) B hA
      rw [hB, List.append_nil, List.cons_append] at this
      dsimp only at hA
      rw [this, hA]
    · have ha : isalpha c = false := by simpa using ha
      by_cases hd : isdigit c = true
      · rw [tokenOf_digit cs ha hd] at hA hnum
        rw [List.cons_append, tokenOf_digit cs ha hd, tokenOf_digit (cs ++ B) ha hd]
        have hB := takeWhile_of_head_neg isdigit B (hnum rfl)
        have := takeWhile_append_of_eq_self isdigit (c :: cs) B hA
        rw [hB, List.append_nil, List.cons_append] at this
        dsimp only at hA
        rw [this, hA]
      · have hd : isdigit c = false := by simpa using hd
        rw [List.cons_append, tokenOf_other cs ha hd, tokenOf_other (cs ++ B) ha hd]

/-- With an ambiguous boundary the first token of `A ++ B` is longer than `A`. -/
theorem tokenOf_append_ambiguous {A B : List Char} (hA : (tokenOf A).2 = A) (b : Char)
    (hb : B.head? = some b)
    (h : (((tokenOf A).1 = TokenType.Let ∨ (tokenOf A).1 = TokenType.Identifier) ∧
            isIdentChar b = true) ∨
         ((tokenOf A).1 = TokenType.Number ∧ isdigit b = true)) :
    A ++ [b] <+: (tokenOf (A ++ B)).2 := by
  obtain ⟨bs, rfl⟩ : ∃ bs, B = b :: bs := by
    match B, hb with
    | _ :: bs, hb => simp at hb; exact ⟨bs, by rw [hb]⟩
  match A with
  | [] => simp [tokenOf] at h
  | c :: cs =>
    by_cases ha : isalpha c = true
    · rw [tokenOf_alpha cs ha] at hA h
      simp only [List.cons_append]
      rw [tokenOf_alpha (cs ++ b :: bs) ha]
      have hbi : isIdentChar b = true := by
        rcases h with h | h
        · exact h.2
        · exfalso
          have h1 := h.1
          dsimp only at h1
          split at h1 <;> simp at h1
      have := takeWhile_append_of_eq_self isIdentChar (c :: cs) (b :: bs) hA
      rw [List.cons_append] at this
      dsimp only
      rw [this, List.takeWhile_cons, hbi]
      exact ⟨bs.takeWhile isIdentChar, by simp⟩
    · have ha : isalpha c = false := by simpa using ha
      by_cases hd : isdigit c = true
      · rw [tokenOf_digit cs ha hd] at hA h
        simp only [List.cons_append]
        rw [tokenOf_digit (cs ++ b :: bs) ha hd]
        have hbd : isdigit b = true := by
          rcases h with h | h
          · simp at h
          · exact h.2
        have := takeWhile_append_of_eq_self isdigit (c :: cs) (b :: bs) hA
        rw [List.cons_append] at this
        dsimp only
        rw [this, List.takeWhile_cons, hbd]
        exact ⟨bs.takeWhile isdigit, by simp⟩
      · have hd : isdigit c = false := by simpa using hd
        obtain ⟨h1, h2, h3, -⟩ := tokenOf_other_type cs ha hd
        rcases h with ⟨h | h, -⟩ | ⟨h, -⟩
        · exact absurd h h1
        · exact absurd h h2
        · exact absurd h h3

/-- The three calls on `A ++ B` when `tokenOf` splits it at the boundary. -/
theorem concat_calls {A B : List Char} (hneA : A ≠ [])
    (hnsA : ∀ c ∈ A, isspace c = false) (hnsB : ∀ c ∈ B, isspace c = false)
    (hA : tokenOf (A ++ B) = tokenOf A) (hA2 : (tokenOf A).2 = A) (hB2 : (tokenOf B).2 = B) :
    (Lexer.new (A ++ B)).nextToken =
      ({ type := (tokenOf A).1, value := A, line := 1, column := 1 },
       { source := A ++ B, pos := A.length, line := 1,
         column := wrapInt ((1 + A.length : Nat) : Int) }) ∧
    (Lexer.mk (A ++ B) A.length 1 (wrapInt ((1 + A.length : Nat) : Int))).nextToken =
      ({ type := (tokenOf B).1, value := B, line := 1,
         column := wrapInt ((1 + A.length : Nat) : Int) },
       { source := A ++ B, pos := A.length + B.length, line := 1,
         column := wrapInt ((1 + A.length + B.length : Nat) : Int) }) ∧
    (Lexer.mk (A ++ B) (A.length + B.length) 1
        (wrapInt ((1 + A.length + B.length : Nat) : Int))).nextToken =
      ({ type := TokenType.EndOfFile, value := [], line := 1,
         column := wrapInt ((1 + A.length + B.length : Nat) : Int) },
       { source := A ++ B, pos := A.length + B.length, line := 1,
         column := wrapInt ((1 + A.length + B.length : Nat) : Int) }) := by
  refine ⟨?_, ?_, ?_⟩
  · have hrest : rest (Lexer.new (A ++ B)) = A ++ B := rest_new _
    have hhead : ∀ c ∈ (rest (Lexer.new (A ++ B))).head?, isspace c = false := by
      rw [hrest]
      intro c hc
      match A, hneA with
      | a :: as, _ =>
        simp at hc
        exact hnsA c (by simp [hc])
    have hcol : incN A.length 1 = wrapInt ((1 + A.length : Nat) : Int) := by
      rw [incN_one]
      push_cast
      rfl
    rw [nextToken_of_head hhead, hrest, hA, hA2]
    simp [Lexer.new, hcol]
  · have hrest :
        rest (Lexer.mk (A ++ B) A.length 1 (wrapInt ((1 + A.length : Nat) : Int))) = B := by
      simp [rest]
    have hhead :
        ∀ c ∈ (rest (Lexer.mk (A ++ B) A.length 1
          (wrapInt ((1 + A.length : Nat) : Int)))).head?, isspace c = false := by
      rw [hrest]
      intro c hc
      exact hnsB c (List.mem_of_mem_head? hc)
    have hcol : incN B.length (wrapInt ((1 + A.length : Nat) : Int)) =
        wrapInt ((1 + A.length + B.length : Nat) : Int) := by
      rw [incN_wrapInt]
      push_cast
      rfl
    rw [nextToken_of_head hhead, hrest, hB2, hcol]
  · have hrest : rest (Lexer.mk (A ++ B) (A.length + B.length) 1
        (wrapInt ((1 + A.length + B.length : Nat) : Int))) = [] := by
      simp [rest]
    rw [(nextToken_at_end hrest).2]

theorem tokenOf_eof_iff (xs : List Char) : (tokenOf xs).1 = TokenType.EndOfFile ↔ xs = [] := by
  match xs with
  | [] => simp [tokenOf]
  | c :: cs =>
    simp only [reduceCtorEq, iff_false]
    by_cases ha : isalpha c = true
    · rw [tokenOf_alpha cs ha]
      dsimp only
      split <;> simp
    · have ha : isalpha c = false := by simpa using ha
      by_cases hd : isdigit c = true
      · rw [tokenOf_digit cs ha hd]
        simp
      · exact (tokenOf_other_type cs ha (by simpa using hd)).2.2.2

/-- A string scanned alone as one token that is the whole string is not empty and
is followed by `EndOfFile`. -/
theorem single_token_then_eof {A : List Char}
    (hne : (tokenAt A 0).type ≠ TokenType.EndOfFile) (hval : (tokenAt A 0).value = A) :
    A ≠ [] ∧ (tokenAt A 1).type = TokenType.EndOfFile := by
  obtain ⟨hns, hk, hv⟩ := single_token_facts hval
  have hneA : A ≠ [] := fun h => hne (by rw [← hk]; exact (tokenOf_eof_iff A).mpr h)
  refine ⟨hneA, ?_⟩
  have hhead : ∀ c ∈ (rest (Lexer.new A)).head?, isspace c = false := by
    rw [rest_new]
    intro c hc
    exact hns c (List.mem_of_mem_head? hc)
  have h0 := nextToken_of_head hhead
  rw [rest_new, hv] at h0
  have hrest : rest (Lexer.new A).nextToken.2 = [] := by
    rw [h0]
    simp [rest, Lexer.new]
  have h1 : tokenAt A 1 = (Lexer.new A).nextToken.2.nextToken.1 := rfl
  rw [h1, (nextToken_at_end hrest).2]

/-- The tokens of `A ++ B` for two single-token strings with an unambiguous
boundary, with `int` columns. -/
theorem concat_tokens {A B : List Char}
    (hneA : (tokenAt A 0).type ≠ TokenType.EndOfFile) (hvalA : (tokenAt A 0).value = A)
    (hneB : (tokenAt B 0).type ≠ TokenType.EndOfFile) (hvalB : (tokenAt B 0).value = B)
    (h1 : ¬ (((tokenAt A 0).type = TokenType.Let ∨ (tokenAt A 0).type = TokenType.Identifier) ∧
          ∃ b ∈ B.head?, (isalpha b = true ∨ isdigit b = true ∨ b = '_')))
    (h2 : ¬ ((tokenAt A 0).type = TokenType.Number ∧ ∃ b ∈ B.head?, isdigit b = true)) :
    tokenAt (A ++ B) 0 =
      { type := (tokenAt A 0).type, value := A, line := 1, column := 1 } ∧
    tokenAt (A ++ B) 1 =
      { type := (tokenAt B 0).type, value := B, line := 1,
        column := wrapInt ((1 + A.length : Nat) : Int) } ∧
    tokenAt (A ++ B) 2 =
      { type := TokenType.EndOfFile, value := [], line := 1,
        column := wrapInt ((1 + A.length + B.length : Nat) : Int) } ∧
    ∀ fuel, 3 ≤ fuel →
      mainTokens fuel (A ++ B) =
        some [{ type := (tokenAt A 0).type, value := A, line := 1, column := 1 },
              { type := (tokenAt B 0).type, value := B, line := 1,
                column := wrapInt ((1 + A.length : Nat) : Int) }] := by
  obtain ⟨hnsA, hkA, hvA⟩ := single_token_facts hvalA
  obtain ⟨hnsB, hkB, hvB⟩ := single_token_facts hvalB
  have hA0 : A ≠ [] := fun h => hneA (by rw [← hkA]; exact (tokenOf_eof_iff A).mpr h)
  have happ : tokenOf (A ++ B) = tokenOf A := by
    apply tokenOf_append hvA hA0
    · intro hid b hb
      by_contra hcon
      exact h1 ⟨by rw [← hkA]; exact hid, b, hb,
        (isIdentChar_iff b).mp (by simpa using hcon)⟩
    · intro hnum b hb
      by_contra hcon
      exact h2 ⟨by rw [← hkA]; exact hnum, b, hb, by simpa using hcon⟩
  obtain ⟨c0, c1, c2⟩ := concat_calls hA0 hnsA hnsB happ hvA hvB
  rw [hkA] at c0
  rw [hkB] at c1
  have e0 : tokenAt (A ++ B) 0 = (Lexer.new (A ++ B)).nextToken.1 := rfl
  have e1 : tokenAt (A ++ B) 1 = (Lexer.new (A ++ B)).nextToken.2.nextToken.1 := rfl
  have e2 : tokenAt (A ++ B) 2 =
      (Lexer.new (A ++ B)).nextToken.2.nextToken.2.nextToken.1 := rfl
  have t0 : tokenAt (A ++ B) 0 =
      { type := (tokenAt A 0).type, value := A, line := 1, column := 1 } := by
    rw [e0, c0]
  have t1 : tokenAt (A ++ B) 1 =
      { type := (tokenAt B 0).type, value := B, line := 1,
        column := wrapInt ((1 + A.length : Nat) : Int) } := by
    rw [e1, c0, c1]
  have t2 : tokenAt (A ++ B) 2 =
      { type := TokenType.EndOfFile, value := [], line := 1,
        column := wrapInt ((1 + A.length + B.length : Nat) : Int) } := by
    rw [e2, c0, c1, c2]
  refine ⟨t0, t1, t2, ?_⟩
  intro fuel hfuel
  have hspec := tokenLoop_spec 2 (Lexer.new (A ++ B)) fuel (by omega)
    (by
      have : (callsFrom (Lexer.new (A ++ B)) 2).nextToken.1 = tokenAt (A ++ B) 2 := rfl
      rw [this, t2])
    (by
      intro j hj
      have hj2 : j = 0 ∨ j = 1 := by omega
      rcases hj2 with rfl | rfl
      · have : (callsFrom (Lexer.new (A ++ B)) 0).nextToken.1 = tokenAt (A ++ B) 0 := rfl
        rw [this, t0]
        exact hneA
      · have : (callsFrom (Lexer.new (A ++ B)) 1).nextToken.1 = tokenAt (A ++ B) 1 := rfl
        rw [this, t1]
        exact hneB)
  rw [mainTokens, hspec]
  have r2 : List.range 2 = [0, 1] := rfl
  rw [r2]
  simp only [List.map_cons, List.map_nil]
  have f0 : (callsFrom (Lexer.new (A ++ B)) 0).nextToken.1 = tokenAt (A ++ B) 0 := rfl
  have f1 : (callsFrom (Lexer.new (A ++ B)) 1).nextToken.1 = tokenAt (A ++ B) 1 := rfl
  rw [f0, f1, t0, t1]

/-- A run of `n > 0` letters `a` is scanned alone as one `Identifier` token that
is the whole string, and followed by `+` the `+` is at the column that is the
`int` value of `1 + n`. -/
theorem runOf_then_plus (n : Nat) (hn : 0 < n) :
    (tokenAt (runOf n 'a') 0).type = TokenType.Identifier ∧
    (tokenAt (runOf n 'a') 0).value = runOf n 'a' ∧
    (tokenAt (runOf n 'a') 1).type = TokenType.EndOfFile ∧
    1 + (runOf n 'a').length = 1 + n ∧
    tokenAt (runOf n 'a' ++ ['+']) 0 =
      { type := TokenType.Identifier, value := runOf n 'a', line := 1, column := 1 } ∧
    (tokenAt (runOf n 'a' ++ ['+']) 1).column = wrapInt ((1 + n : Nat) : Int) := by
  obtain ⟨m, rfl⟩ : ∃ m, n = m + 1 := ⟨n - 1, by omega⟩
  have hA : runOf (m + 1) 'a' = 'a' :: List.replicate m 'a' := by
    unfold runOf
    rfl
  have hlen : (runOf (m + 1) 'a').length = m + 1 := by
    unfold runOf
    simp
  have hrun : ('a' :: List.replicate m 'a').takeWhile isIdentChar =
      'a' :: List.replicate m 'a' := by
    rw [List.takeWhile_eq_self_iff]
    intro c hc
    have : c = 'a' := by
      rcases List.mem_cons.mp hc with h | h
      · exact h
      · exact List.eq_of_mem_replicate h
    rw [this]
    decide
  have htok : tokenOf (runOf (m + 1) 'a') = (TokenType.Identifier, runOf (m + 1) 'a') := by
    rw [hA, tokenOf_alpha _ (by decide), hrun]
    simp
  have hhead : ∀ c ∈ (rest (Lexer.new (runOf (m + 1) 'a'))).head?, isspace c = false := by
    rw [rest_new, hA]
    intro c hc
    simp at hc
    rw [← hc]
    decide
  have h0 := nextToken_of_head hhead
  rw [rest_new, htok] at h0
  have e0 : tokenAt (runOf (m + 1) 'a') 0 = (Lexer.new (runOf (m + 1) 'a')).nextToken.1 := rfl
  have hty : (tokenAt (runOf (m + 1) 'a') 0).type = TokenType.Identifier := by rw [e0, h0]
  have hval : (tokenAt (runOf (m + 1) 'a') 0).value = runOf (m + 1) 'a' := by rw [e0, h0]
  have hne : (tokenAt (runOf (m + 1) 'a') 0).type ≠ TokenType.EndOfFile := by
    rw [hty]
    decide
  obtain ⟨t0, t1, -, -⟩ := @concat_tokens (runOf (m + 1) 'a') ['+'] hne hval (by decide) (by decide)
    (by
      rintro ⟨-, b, hb, h⟩
      simp at hb
      subst hb
      revert h
      decide)
    (by
      rintro ⟨h, -⟩
      rw [hty] at h
      cases h)
  refine ⟨hty, hval, (single_token_then_eof hne hval).2, by rw [hlen], ?_, ?_⟩
  · rw [t0, hty]
  · rw [t1, hlen]

/-- Counterexample to C11 as stated: `A`, a run of `2^31 - 1` letters `a`, and
`B = "+"` are each scanned alone as one token that is the whole string,
followed by `EndOfFile`; `A`'s token is an `Identifier` and `B` starts with
`+`, so the boundary is unambiguous; `1 + length A` is `2^31`, and in `A ++ B`
the column of `B`'s token is `-2^31`. -/
theorem concatenation_counterexample :
    (tokenAt (runOf 2147483647 'a') 0).type = TokenType.Identifier ∧
    (tokenAt (runOf 2147483647 'a') 0).value = runOf 2147483647 'a' ∧
    (tokenAt (runOf 2147483647 'a') 1).type = TokenType.EndOfFile ∧
    tokenAt ['+'] 0 = { type := TokenType.Plus, value := ['+'], line := 1, column := 1 } ∧
    (tokenAt ['+'] 1).type = TokenType.EndOfFile ∧
    (isalpha '+' = false ∧ isdigit '+' = false ∧ '+' ≠ '_') ∧
    1 + (runOf 2147483647 'a').length = 2147483648 ∧
    tokenAt (runOf 2147483647 'a' ++ ['+']) 0 =
      { type := TokenType.Identifier, value := runOf 2147483647 'a', line := 1, column := 1 } ∧
    (tokenAt (runOf 2147483647 'a' ++ ['+']) 1).column = -2147483648 :=
  ⟨(runOf_then_plus 2147483647 (by decide)).1,
    (runOf_then_plus 2147483647 (by decide)).2.1,
    (runOf_then_plus 2147483647 (by decide)).2.2.1,
    by decide, by decide, by decide,
    (runOf_then_plus 2147483647 (by decide)).2.2.2.1.trans (by decide),
    (runOf_then_plus 2147483647 (by decide)).2.2.2.2.1,
    (runOf_then_plus 2147483647 (by decide)).2.2.2.2.2.trans wrapInt_two_pow_31⟩

/-- Claim C11, amended. Concatenation property.  Let `A` and `B` each be scanned
alone as one token that is not `EndOfFile` and whose text is the whole string
(then the string is not empty and the next token is `EndOfFile`, first part).
If the boundary is unambiguous, that is, it is not the case that `A`'s token is
`Let` or `Identifier` and `B` starts with a letter, digit or underscore, nor
that `A`'s token is `Number` and `B` starts with a digit, then `A ++ B` is
scanned as `A`'s token (same kind and text) at (1,1), then `B`'s token (same
kind and text) at line 1 and the column that is the `int` value of
`1 + length A`, then `EndOfFile`, and `main` prints exactly these two tokens;
when `A ++ B` is shorter than `2^31 - 1` characters the columns are
`1 + length A` and `1 + length A + length B` themselves (second part).  If the
boundary is ambiguous the run is not split: the first token of `A ++ B`
extends over the first character of `B` (third part); `"let" ++ "x"` is
scanned as the single identifier `letx`. -/
theorem concatenation_of_single_tokens :
    (∀ A : List Char, (tokenAt A 0).type ≠ TokenType.EndOfFile → (tokenAt A 0).value = A →
      A ≠ [] ∧ (tokenAt A 1).type = TokenType.EndOfFile) ∧
    (∀ A B : List Char,
      (tokenAt A 0).type ≠ TokenType.EndOfFile → (tokenAt A 0).value = A →
      (tokenAt B 0).type ≠ TokenType.EndOfFile → (tokenAt B 0).value = B →
      ¬ (((tokenAt A 0).type = TokenType.Let ∨ (tokenAt A 0).type = TokenType.Identifier) ∧
          ∃ b ∈ B.head?, (isalpha b = true ∨ isdigit b = true ∨ b = '_')) →
      ¬ ((tokenAt A 0).type = TokenType.Number ∧ ∃ b ∈ B.head?, isdigit b = true) →
        tokenAt (A ++ B) 0 =
          { type := (tokenAt A 0).type, value := A, line := 1, column := 1 } ∧
        tokenAt (A ++ B) 1 =
          { type := (tokenAt B 0).type, value := B, line := 1,
            column := wrapInt ((1 + A.length : Nat) : Int) } ∧
        tokenAt (A ++ B) 2 =
          { type := TokenType.EndOfFile, value := [], line := 1,
            column := wrapInt ((1 + A.length + B.length : Nat) : Int) } ∧
        (∀ fuel, 3 ≤ fuel →
          mainTokens fuel (A ++ B) =
            some [{ type := (tokenAt A 0).type, value := A, line := 1, column := 1 },
                  { type := (tokenAt B 0).type, value := B, line := 1,
                    column := wrapInt ((1 + A.length : Nat) : Int) }]) ∧
        ((A ++ B).length < 2147483647 →
          tokenAt (A ++ B) 1 =
            { type := (tokenAt B 0).type, value := B, line := 1,
              column := ((1 + A.length : Nat) : Int) } ∧
          tokenAt (A ++ B) 2 =
            { type := TokenType.EndOfFile, value := [], line := 1,
              column := ((1 + A.length + B.length : Nat) : Int) } ∧
          ∀ fuel, 3 ≤ fuel →
            mainTokens fuel (A ++ B) =
              some [{ type := (tokenAt A 0).type, value := A, line := 1, column := 1 },
                    { type := (tokenAt B 0).type, value := B, line := 1,
                      column := ((1 + A.length : Nat) : Int) }])) ∧
    (∀ (A B : List Char) (b : Char),
      (tokenAt A 0).type ≠ TokenType.EndOfFile → (tokenAt A 0).value = A →
      B.head? = some b →
      ((((tokenAt A 0).type = TokenType.Let ∨ (tokenAt A 0).type = TokenType.Identifier) ∧
          (isalpha b = true ∨ isdigit b = true ∨ b = '_')) ∨
        ((tokenAt A 0).type = TokenType.Number ∧ isdigit b = true)) →
        A ++ [b] <+: (tokenAt (A ++ B) 0).value) ∧
    (List.range 2).map (tokenAt ("let".toList ++ "x".toList)) =
      [{ type := TokenType.Identifier, value := "letx".toList, line := 1, column := 1 },
       { type := TokenType.EndOfFile, value := [], line := 1, column := 5 }] ∧
    (List.range 2).map (tokenAt ("12".toList ++ "3".toList)) =
      [{ type := TokenType.Number, value := "123".toList, line := 1, column := 1 },
       { type := TokenType.EndOfFile, value := [], line := 1, column := 4 }] := by
  refine ⟨fun A hne hval => single_token_then_eof hne hval, ?_, ?_, by decide, by decide⟩
  · intro A B hneA hvalA hneB hvalB h1 h2
    obtain ⟨t0, t1, t2, t3⟩ := concat_tokens hneA hvalA hneB hvalB h1 h2
    refine ⟨t0, t1, t2, t3, ?_⟩
    intro hlen
    rw [List.length_append] at hlen
    have e1 : wrapInt ((1 + A.length : Nat) : Int) = ((1 + A.length : Nat) : Int) :=
      wrapInt_of_range (by omega) (by omega)
    have e2 : wrapInt ((1 + A.length + B.length : Nat) : Int) =
        ((1 + A.length + B.length : Nat) : Int) :=
      wrapInt_of_range (by omega) (by omega)
    rw [e1] at t1 t3
    rw [e2] at t2
    exact ⟨t1, t2, t3⟩
  · intro A B b hneA hvalA hb h
    obtain ⟨hnsA, hkA, hvA⟩ := single_token_facts hvalA
    have hA0 : A ≠ [] := fun h => hneA (by rw [← hkA]; exact (tokenOf_eof_iff A).mpr h)
    have hpre := tokenOf_append_ambiguous hvA b hb (by
      rw [hkA]
      rcases h with ⟨h1, h2⟩ | h
      · exact Or.inl ⟨h1, (isIdentChar_iff b).mpr h2⟩
      · exact Or.inr h)
    have hrest : rest (Lexer.new (A ++ B)) = A ++ B := rest_new _
    have hhead : ∀ c ∈ (rest (Lexer.new (A ++ B))).head?, isspace c = false := by
      rw [hrest]
      intro c hc
      match A, hA0 with
      | a :: as, _ =>
        simp at hc
        exact hnsA c (by simp [hc])
    have e0 : tokenAt (A ++ B) 0 = (Lexer.new (A ++ B)).nextToken.1 := rfl
    rw [e0, nextToken_of_head hhead, hrest]
    exact hpre

/-- Witness for C11: `"42"` and `"let"` are single tokens with an unambiguous
boundary (a keyword followed by a digit would be ambiguous, so the pair used
is `"42"` then `"let"`): `"42let"` is `Number "42"` at (1,1), then `Let` at
(1,3), then `EndOfFile` at (1,6). -/
theorem concatenation_of_single_tokens_witness :
    ("42".toList ++ "let".toList).length < 2147483647 ∧
    tokenAt ("42".toList ++ "let".toList) 1 =
      { type := TokenType.Let, value := "let".toList, line := 1, column := 3 } ∧
    tokenAt ("42".toList ++ "let".toList) 2 =
      { type := TokenType.EndOfFile, value := [], line := 1, column := 6 } ∧
    ∀ fuel, 3 ≤ fuel →
      mainTokens fuel ("42".toList ++ "let".toList) =
        some [{ type := TokenType.Number, value := "42".toList, line := 1, column := 1 },
              { type := TokenType.Let, value := "let".toList, line := 1, column := 3 }] :=
  ⟨by decide,
    (concatenation_of_single_tokens.2.1 "42".toList "let".toList (by decide) (by decide)
      (by decide) (by decide) (by decide) (by decide)).2.2.2.2 (by decide)⟩

/-! ## Letters and digits in one token -/

theorem isdigit_not_isalpha {c : Char} (h : isdigit c = true) : isalpha c = false := by
  by_contra ha
  have := isalpha_not_isdigit (by simpa using ha : isalpha c = true)
  rw [h] at this
  cases this

theorem tokenOf_letters_digits (xs : List Char) :
    ((tokenOf xs).1 ≠ TokenType.Identifier →
      ¬ ((∃ d ∈ (tokenOf xs).2, isdigit d = true) ∧ ∃ a ∈ (tokenOf xs).2, isalpha a = true)) ∧
    (∀ c, (tokenOf xs).2.head? = some c → isdigit c = true →
      (tokenOf xs).1 = TokenType.Number ∧
      ∀ d ∈ (tokenOf xs).2, isdigit d = true ∧ isalpha d = false) := by
  match xs with
  | [] => simp [tokenOf]
  | c :: cs =>
    by_cases ha : isalpha c = true
    · rw [tokenOf_alpha cs ha]
      have hrun : (c :: cs).takeWhile isIdentChar = c :: cs.takeWhile isIdentChar := by
        simp [List.takeWhile_cons, isIdentChar_of_isalpha ha]
      constructor
      · dsimp only
        intro hne
        split at hne
        · next hlet =>
          rw [hlet]
          rintro ⟨⟨d, hd, hdd⟩, -⟩
          simp at hd
          rcases hd with rfl | rfl | rfl <;> revert hdd <;> decide
        · exact absurd rfl hne
      · intro d hd hdd
        dsimp only at hd
        rw [hrun] at hd
        simp at hd
        subst hd
        rw [isalpha_not_isdigit ha] at hdd
        cases hdd
    · have ha : isalpha c = false := by simpa using ha
      by_cases hd : isdigit c = true
      · rw [tokenOf_digit cs ha hd]
        have hall : ∀ d ∈ (c :: cs).takeWhile isdigit, isdigit d = true ∧ isalpha d = false :=
          fun d hd2 => ⟨List.mem_takeWhile_imp hd2, isdigit_not_isalpha (List.mem_takeWhile_imp hd2)⟩
        constructor
        · intro _
          rintro ⟨-, a, ha2, haa⟩
          rw [(hall a ha2).2] at haa
          cases haa
        · intro d _ _
          exact ⟨rfl, hall⟩
      · have hd : isdigit c = false := by simpa using hd
        rw [tokenOf_other cs ha hd]
        constructor
        · intro _
          rintro ⟨⟨d, hd2, hdd⟩, -⟩
          simp at hd2
          subst hd2
          rw [hd] at hdd
          cases hdd
        · intro d hd2 hdd
          simp at hd2
          subst hd2
          rw [hd] at hdd
          cases hdd

/-- A token of kind `Identifier` or `Let` starts with a letter and goes on with
letters, digits and underscores. -/
theorem tokenOf_identifier_shape (xs : List Char)
    (h : (tokenOf xs).1 = TokenType.Identifier ∨ (tokenOf xs).1 = TokenType.Let) :
    (∃ c, (tokenOf xs).2.head? = some c ∧ isalpha c = true) ∧
    ∀ d ∈ (tokenOf xs).2, isalpha d = true ∨ isdigit d = true ∨ d = '_' := by
  match xs with
  | [] => simp [tokenOf] at h
  | c :: cs =>
    by_cases ha : isalpha c = true
    · rw [tokenOf_alpha cs ha]
      dsimp only
      refine ⟨⟨c, ?_, ha⟩, fun d hd => (isIdentChar_iff d).mp (List.mem_takeWhile_imp hd)⟩
      simp [List.takeWhile_cons, isIdentChar_of_isalpha ha]
    · have ha : isalpha c = false := by simpa using ha
      exfalso
      by_cases hd : isdigit c = true
      · rw [tokenOf_digit cs ha hd] at h
        simp at h
      · obtain ⟨h1, h2, -, -⟩ := tokenOf_other_type cs ha (by simpa using hd)
        rcases h with h | h
        · exact h2 h
        · exact h1 h

/-- Counterexample to C12 as stated: the input `"a1"` is scanned as the single
token `Identifier "a1"`, whose text holds the letter `a` and the digit `1`. -/
theorem letters_digits_merge_counterexample :
    tokenAt "a1".toList 0 =
      { type := TokenType.Identifier, value := "a1".toList, line := 1, column := 1 } ∧
    (tokenAt "a1".toList 1).type = TokenType.EndOfFile ∧
    (∃ d ∈ (tokenAt "a1".toList 0).value, isdigit d = true) ∧
    (∃ a ∈ (tokenAt "a1".toList 0).value, isalpha a = true) := by
  refine ⟨by decide, by decide, ⟨'1', by decide, by decide⟩, ⟨'a', by decide, by decide⟩⟩

/-- Claim C12, amended. For every input and every call: a token whose kind is not
`Identifier` has no text that holds both an ASCII digit and an ASCII letter; a
token whose text starts with a digit is a `Number` made of digits only, with
no letter, so a digit run followed by letters is split, as in `"123abc"`; and
an `Identifier` starts with an ASCII letter and goes on with letters, digits
and underscores only, so it may hold digits after its first character, as in
`"a1"`. -/
theorem digits_then_letters_never_merge :
    (∀ (src : List Char) (n : Nat),
      ((tokenAt src n).type ≠ TokenType.Identifier →
        ¬ ((∃ d ∈ (tokenAt src n).value, isdigit d = true) ∧
            ∃ a ∈ (tokenAt src n).value, isalpha a = true)) ∧
      (∀ c, (tokenAt src n).value.head? = some c → isdigit c = true →
        (tokenAt src n).type = TokenType.Number ∧
        ∀ d ∈ (tokenAt src n).value, isdigit d = true ∧ isalpha d = false) ∧
      ((tokenAt src n).type = TokenType.Identifier →
        (∃ c, (tokenAt src n).value.head? = some c ∧ isalpha c = true) ∧
        ∀ d ∈ (tokenAt src n).value, isalpha d = true ∨ isdigit d = true ∨ d = '_')) ∧
    (List.range 3).map (tokenAt "123abc".toList) =
      [{ type := TokenType.Number, value := "123".toList, line := 1, column := 1 },
       { type := TokenType.Identifier, value := "abc".toList, line := 1, column := 4 },
       { type := TokenType.EndOfFile, value := [], line := 1, column := 7 }] ∧
    (List.range 2).map (tokenAt "a1".toList) =
      [{ type := TokenType.Identifier, value := "a1".toList, line := 1, column := 1 },
       { type := TokenType.EndOfFile, value := [], line := 1, column := 3 }] ∧
    (List.range 3).map (tokenAt "_a1".toList) =
      [{ type := TokenType.Unknown, value := "_".toList, line := 1, column := 1 },
       { type := TokenType.Identifier, value := "a1".toList, line := 1, column := 2 },
       { type := TokenType.EndOfFile, value := [], line := 1, column := 4 }] := by
  refine ⟨?_, by decide, by decide, by decide⟩
  intro src n
  obtain ⟨h1, h2⟩ := nextToken_tokenOf (lexerAfter src n)
  obtain ⟨t1, t2⟩ := tokenOf_letters_digits (rest (lexerAfter src n).skipWhitespace)
  have t3 := tokenOf_identifier_shape (rest (lexerAfter src n).skipWhitespace)
  rw [← h1, ← h2] at t1 t2 t3
  exact ⟨t1, t2, fun h => t3 (Or.inl h)⟩

/-! ## The example of the specification -/

/-- Claim C13. Six calls on `"let x = 5;"` return `Let "let"`, `Identifier "x"`,
`Equal "="`, `Number "5"`, `Semicolon ";"` and `EndOfFile ""`, all on line 1,
at columns 1, 5, 7, 9, 10 and 11; `main` prints the first five. -/
theorem let_statement_tokens :
    (List.range 6).map (tokenAt "let x = 5;".toList) =
      [{ type := TokenType.Let, value := "let".toList, line := 1, column := 1 },
       { type := TokenType.Identifier, value := "x".toList, line := 1, column := 5 },
       { type := TokenType.Equal, value := "=".toList, line := 1, column := 7 },
       { type := TokenType.Number, value := "5".toList, line := 1, column := 9 },
       { type := TokenType.Semicolon, value := ";".toList, line := 1, column := 10 },
       { type := TokenType.EndOfFile, value := [], line := 1, column := 11 }] ∧
    mainTokens 11 "let x = 5;".toList =
      some [{ type := TokenType.Let, value := "let".toList, line := 1, column := 1 },
            { type := TokenType.Identifier, value := "x".toList, line := 1, column := 5 },
            { type := TokenType.Equal, value := "=".toList, line := 1, column := 7 },
            { type := TokenType.Number, value := "5".toList, line := 1, column := 9 },
            { type := TokenType.Semicolon, value := ";".toList, line := 1, column := 10 }] := by
  refine ⟨by decide, by decide⟩

/-! ## Token text and the source -/

/-- Claim C14. Token text is the consumed source slice and the cursor ends just
past it: in a reachable state, with `s` the offset of the first non-whitespace
character at or after the cursor (the length when there is none) and `e` the
cursor offset after `nextToken` has returned the token `t`, the text of `t` is
`source[s..e)`, `e = s + length (text)` and `e ≤ length (source)`; the text is
empty exactly when `t` is `EndOfFile`, and for every other kind it is not
empty and `e > s`. -/
theorem token_text_is_source_slice (src : List Char) (l : Lexer) (hl : Reachable src l)
    (s : Nat) (hs : FirstNonSpaceAt src l.pos s) :
    l.nextToken.1.value = (src.take l.nextToken.2.pos).drop s ∧
    l.nextToken.2.pos = s + l.nextToken.1.value.length ∧
    l.nextToken.2.pos ≤ src.length ∧
    (l.nextToken.1.value = [] ↔ l.nextToken.1.type = TokenType.EndOfFile) ∧
    (l.nextToken.1.type ≠ TokenType.EndOfFile →
      l.nextToken.1.value ≠ [] ∧ s < l.nextToken.2.pos) := by
  obtain ⟨hsrc, hle, -⟩ := reachable_inv hl
  obtain ⟨-, hpos, -, -⟩ := skipWhitespace_position hl hs
  have hrest := rest_skipWhitespace_of_first hl hs
  obtain ⟨-, -, -, hval, heof, hnil⟩ := nextToken_shape l
  have he : l.nextToken.2.pos = s + l.nextToken.1.value.length := by
    rw [nextToken_pos, hpos]
  have hbound := nextToken_pos_le l (by rw [hsrc]; exact hle)
  rw [hsrc] at hbound
  rw [hrest] at hval
  refine ⟨?_, he, hbound, hnil.trans heof.symm, ?_⟩
  · rw [he, List.drop_take, Nat.add_sub_cancel_left]
    exact hval
  · intro hne
    have hv : l.nextToken.1.value ≠ [] := fun h => hne (heof.mpr (hnil.mp h))
    have := List.length_pos.mpr hv
    exact ⟨hv, by omega⟩

/-- Witness for C14: in `"ab  cd;"` after the first call the cursor is at offset
2, the first non-whitespace character is at offset 4, and the token `cd` is
`source[4..6)`. -/
theorem token_text_is_source_slice_witness :
    (lexerAfter "ab  cd;".toList 1).pos = 2 ∧
    (lexerAfter "ab  cd;".toList 1).nextToken.1.value = "cd".toList ∧
    (lexerAfter "ab  cd;".toList 1).nextToken.2.pos = 6 ∧
    (lexerAfter "ab  cd;".toList 1).nextToken.1.value =
      ("ab  cd;".toList.take (lexerAfter "ab  cd;".toList 1).nextToken.2.pos).drop 4 :=
  ⟨by decide, by decide, by decide,
    (token_text_is_source_slice "ab  cd;".toList _ (reachable_lexerAfter _ 1) 4 (by decide)).1⟩

/-! ## Lines -/

theorem count_take_split (src : List Char) (pos s : Nat) (h : pos ≤ s) :
    (src.take s).count '\n' = (src.take pos).count '\n' + ((src.take s).drop pos).count '\n' := by
  have h1 : src.take s = (src.take s).take pos ++ (src.take s).drop pos :=
    (List.take_append_drop pos _).symm
  have h2 : (src.take s).take pos = src.take pos := by
    rw [List.take_take, Nat.min_eq_left h]
  rw [h2] at h1
  conv_lhs => rw [h1]
  rw [List.count_append]

/-- Counterexample to C15 as stated: on `2^31 - 1` newlines followed by `y`, the
first character of the token `y` is at offset `2^31 - 1`, on line `2^31` (one
plus the number of newlines before it), and the scanner's line counter just
after the token has been consumed is `-2^31`. -/
theorem line_after_token_counterexample :
    Reachable (newlinesThen 2147483647 'y') (Lexer.new (newlinesThen 2147483647 'y')) ∧
    FirstNonSpaceAt (newlinesThen 2147483647 'y') (Lexer.new (newlinesThen 2147483647 'y')).pos
      2147483647 ∧
    1 + ((newlinesThen 2147483647 'y').take 2147483647).count '\n' = 2147483648 ∧
    (Lexer.new (newlinesThen 2147483647 'y')).nextToken.2.line = -2147483648 :=
  ⟨(newlinesThen_call 2147483647 'y' (by decide)).1,
    (newlinesThen_call 2147483647 'y' (by decide)).2.1,
    (newlinesThen_call 2147483647 'y' (by decide)).2.2.2.1.trans (by decide),
    (newlinesThen_after_call 2147483647 'y' (by decide)).2.2.2.trans wrapInt_two_pow_31⟩

/-- Claim C15, amended. No token spans a line boundary: the text of a token holds
no newline and no whitespace character at all, and the scanner's line counter
just after the token has been consumed is the line of the token, which is the
line counter reached by `skipWhitespace`, so the line changes only inside
whitespace skipping (first part, from every state).  In a reachable state this
counter is the `int` value of the line of the token's first character, and of
the line counter before the call plus the number of newlines in the whitespace
skipped, `source[pos..s)`; when the source is shorter than `2^31 - 1`
characters it is these numbers themselves (second part). -/
theorem no_token_spans_lines :
    (∀ l : Lexer,
      (∀ c ∈ l.nextToken.1.value, c ≠ '\n' ∧ isspace c = false) ∧
      l.nextToken.2.line = l.nextToken.1.line ∧
      l.nextToken.2.line = l.skipWhitespace.line) ∧
    (∀ (src : List Char) (l : Lexer), Reachable src l →
      ∀ s : Nat, FirstNonSpaceAt src l.pos s →
        l.nextToken.2.line = wrapInt ((1 + (src.take s).count '\n' : Nat) : Int) ∧
        l.nextToken.2.line =
          wrapInt (l.line + ((((src.take s).drop l.pos).count '\n' : Nat) : Int)) ∧
        (src.length < 2147483647 →
          l.nextToken.2.line = ((1 + (src.take s).count '\n' : Nat) : Int) ∧
          l.nextToken.2.line = l.line + ((((src.take s).drop l.pos).count '\n' : Nat) : Int))) ∧
    (List.range 3).map (tokenAt "a \n\n b".toList) =
      [{ type := TokenType.Identifier, value := "a".toList, line := 1, column := 1 },
       { type := TokenType.Identifier, value := "b".toList, line := 3, column := 2 },
       { type := TokenType.EndOfFile, value := [], line := 3, column := 3 }] ∧
    (lexerAfter "a \n\n b".toList 1).line = 1 ∧
    (lexerAfter "a \n\n b".toList 2).line = 3 := by
  refine ⟨?_, ?_, by decide, by decide, by decide⟩
  · intro l
    have hstate := nextToken_state l
    have hline : l.nextToken.2.line = l.skipWhitespace.line := by rw [hstate]
    refine ⟨fun c hc => ?_, ?_, hline⟩
    · have := nextToken_value_no_space l c hc
      exact ⟨ne_newline_of_not_isspace this, this⟩
    · rw [hline, (nextToken_shape l).1]
  · intro src l hl s hs
    obtain ⟨hsrc, hle, hinv⟩ := reachable_inv hl
    obtain ⟨-, -, h3, -⟩ := skipWhitespace_position hl hs
    have hline : l.nextToken.2.line = l.skipWhitespace.line := by rw [nextToken_state l]
    have hsplit := count_take_split src l.pos s hs.1
    have hb := lineAt_le src s
    have hb0 := lineAt_le src l.pos
    unfold lineAt at hb hb0
    have e1 : l.nextToken.2.line = wrapInt ((1 + (src.take s).count '\n' : Nat) : Int) := by
      rw [hline, h3]
      rfl
    have e0 : l.line = wrapInt ((1 + (src.take l.pos).count '\n' : Nat) : Int) := by
      rw [hinv.1, hsrc]
      push_cast
      rfl
    have e2 : l.nextToken.2.line =
        wrapInt (l.line + ((((src.take s).drop l.pos).count '\n' : Nat) : Int)) := by
      rw [e1, e0, wrapInt_wrapInt_add, hsplit]
      push_cast
      rw [Int.add_assoc]
    refine ⟨e1, e2, fun hlen => ?_⟩
    have x1 := exact_of_wrapInt e1 (by omega)
    have x0 := exact_of_wrapInt e0 (by omega)
    refine ⟨x1, ?_⟩
    rw [x1, x0, hsplit]
    push_cast
    rw [Int.add_assoc]

/-- Witness for C15: in `"a \n\n b"` after the first call the cursor is at
offset 1 on line 1; the next token starts at offset 5, after two newlines, and
the line after it is 3. -/
theorem no_token_spans_lines_witness :
    (lexerAfter "a \n\n b".toList 1).line = 1 ∧
    "a \n\n b".toList.length < 2147483647 ∧
    (lexerAfter "a \n\n b".toList 1).nextToken.2.line = 3 ∧
    (lexerAfter "a \n\n b".toList 1).nextToken.2.line =
      (lexerAfter "a \n\n b".toList 1).line +
        (((("a \n\n b".toList.take 5).drop (lexerAfter "a \n\n b".toList 1).pos).count '\n' :
          Nat) : Int) :=
  ⟨by decide, by decide, by decide,
    ((no_token_spans_lines.2.1 "a \n\n b".toList _ (reachable_lexerAfter _ 1) 5
      (by decide)).2.2 (by decide)).2⟩

/-! ## Coverage of the input -/

/-- One call splits the non-whitespace part of the unread input into the text of
the token and the non-whitespace part of what is left. -/
theorem filter_rest_step (l : Lexer) :
    (rest l).filter (fun c => !isspace c) =
      l.nextToken.1.value ++ (rest l.nextToken.2).filter (fun c => !isspace c) := by
  obtain ⟨-, -, hstate, hval, -, -⟩ := nextToken_shape l
  have hskip : (rest l).filter (fun c => !isspace c) =
      (rest l.skipWhitespace).filter (fun c => !isspace c) := by
    rw [rest_skipWhitespace]
    conv_lhs => rw [← List.takeWhile_append_dropWhile isspace (rest l)]
    rw [List.filter_append]
    have : ((rest l).takeWhile isspace).filter (fun c => !isspace c) = [] := by
      rw [List.filter_eq_nil_iff]
      intro c hc
      simp [List.mem_takeWhile_imp hc]
    rw [this, List.nil_append]
  have hsplit : rest l.skipWhitespace =
      l.nextToken.1.value ++ rest l.nextToken.2 := by
    conv_rhs => rw [hstate, rest_advanceN, hval]
    simp only [List.length_take]
    rw [Nat.min_eq_left (nextToken_value_length_le l)]
    exact (List.take_append_drop _ _).symm
  have hself : l.nextToken.1.value.filter (fun c => !isspace c) = l.nextToken.1.value := by
    rw [List.filter_eq_self]
    intro c hc
    simp [nextToken_value_no_space l c hc]
  rw [hskip]
  conv_lhs => rw [hsplit]
  rw [List.filter_append, hself]

theorem texts_from (k : Nat) (l : Lexer)
    (hk : (callsFrom l k).nextToken.1.type = TokenType.EndOfFile) :
    ((List.range k).map (fun j => (callsFrom l j).nextToken.1.value)).flatten =
      (rest l).filter (fun c => !isspace c) := by
  induction k generalizing l with
  | zero =>
    have h0 : l.nextToken.1.type = TokenType.EndOfFile := hk
    obtain ⟨hr, htok⟩ := nextToken_eof_result h0
    rw [filter_rest_step l, hr, htok]
    rfl
  | succ k ih =>
    have := ih l.nextToken.2 (by rw [← callsFrom_shift]; exact hk)
    rw [filter_rest_step l, ← this, List.range_succ_eq_map]
    have hz : callsFrom l 0 = l := rfl
    simp [callsFrom_shift, hz, Function.comp_def]

/-- Claim C16. Lossless coverage of the non-whitespace input: for every source,
the texts of the tokens returned from a fresh scanner before the first
`EndOfFile` (call number `k`), concatenated in order, are the source with every
whitespace character removed; these tokens are the ones `main` prints.  So no
character is dropped, duplicated or invented. -/
theorem lossless_coverage :
    (∀ src : List Char, ∃ k,
      (tokenAt src k).type = TokenType.EndOfFile ∧
      (∀ j < k, (tokenAt src j).type ≠ TokenType.EndOfFile) ∧
      ((List.range k).map (fun j => (tokenAt src j).value)).flatten =
        src.filter (fun c => !isspace c) ∧
      mainTokens (src.length + 1) src = some ((List.range k).map (tokenAt src))) ∧
    (∀ (src : List Char) (k : Nat), (tokenAt src k).type = TokenType.EndOfFile →
      ((List.range k).map (fun j => (tokenAt src j).value)).flatten =
        src.filter (fun c => !isspace c)) ∧
    ((List.range 5).map (fun j => (tokenAt " let\tx1 = 5;\n".toList j).value)).flatten =
      "letx1=5;".toList ∧
    (tokenAt " let\tx1 = 5;\n".toList 5).type = TokenType.EndOfFile := by
  have hall : ∀ (src : List Char) (k : Nat), (tokenAt src k).type = TokenType.EndOfFile →
      ((List.range k).map (fun j => (tokenAt src j).value)).flatten =
        src.filter (fun c => !isspace c) := by
    intro src k hk
    have := texts_from k (Lexer.new src) hk
    rw [rest_new] at this
    exact this
  refine ⟨?_, hall, by decide, by decide⟩
  intro src
  obtain ⟨k, hle, heof, hlt⟩ := exists_eof src
  exact ⟨k, heof, hlt, hall src k heof,
    tokenLoop_spec k (Lexer.new src) (src.length + 1) (by omega) heof hlt⟩

/-! ## End of input, exactly -/

/-- When `EndOfFile` is returned from a reachable state: exactly when only
whitespace is left, at the `int` line and column of the end of the source. -/
theorem eof_token {src : List Char} {l : Lexer} (hl : Reachable src l) :
    (l.nextToken.1.type = TokenType.EndOfFile ↔ ∀ c ∈ src.drop l.pos, isspace c = true) ∧
    (l.nextToken.1.type = TokenType.EndOfFile →
      l.nextToken.1 =
        { type := TokenType.EndOfFile,
          value := [],
          line := wrapInt ((1 + src.count '\n' : Nat) : Int),
          column := wrapInt ((1 + charsAfterLastNewline src : Nat) : Int) } ∧
      l.nextToken.2.pos = src.length) := by
  obtain ⟨hsrc, hle, hinv⟩ := reachable_inv hl
  obtain ⟨-, -, -, -, heof, -⟩ := nextToken_shape l
  have hiff : l.nextToken.1.type = TokenType.EndOfFile ↔
      ∀ c ∈ src.drop l.pos, isspace c = true := by
    rw [heof, rest_skipWhitespace, List.dropWhile_eq_nil_iff, rest, hsrc]
  refine ⟨hiff, ?_⟩
  intro h
  have hall := hiff.mp h
  have hfirst : FirstNonSpaceAt src l.pos src.length := by
    refine ⟨hle, le_refl _, ?_, ?_⟩
    · rw [List.take_length]
      exact hall
    · intro c hc
      simp at hc
  obtain ⟨-, hpos, hline, hcol⟩ := skipWhitespace_position hl hfirst
  rw [lineAt, List.take_length] at hline
  rw [columnAt, List.take_length] at hcol
  obtain ⟨hr, htok⟩ := nextToken_eof_result h
  have hstate : l.nextToken.2 = l.skipWhitespace := by
    rw [nextToken_eof (heof.mp h)]
  rw [hstate] at htok
  rw [htok, hstate, hline, hcol, hpos]
  exact ⟨rfl, rfl⟩

/-- The first call on `n` newlines returns `EndOfFile` with the `int` value of
`1 + n` as its line. -/
theorem runOf_newlines_call (n : Nat) :
    Reachable (runOf n '\n') (Lexer.new (runOf n '\n')) ∧
    (∀ c ∈ (runOf n '\n').drop (Lexer.new (runOf n '\n')).pos, isspace c = true) ∧
    (Lexer.new (runOf n '\n')).nextToken.1.type = TokenType.EndOfFile ∧
    1 + (runOf n '\n').count '\n' = 1 + n ∧
    (Lexer.new (runOf n '\n')).nextToken.1.line = wrapInt ((1 + n : Nat) : Int) := by
  have hall : ∀ c ∈ (runOf n '\n').drop (Lexer.new (runOf n '\n')).pos, isspace c = true := by
    intro c hc
    have hc2 : c ∈ runOf n '\n' := List.mem_of_mem_drop hc
    unfold runOf at hc2
    exact isspace_of_mem_replicate hc2
  have hcount : (runOf n '\n').count '\n' = n := by
    unfold runOf
    exact List.count_replicate_self _ _
  obtain ⟨hiff, hpos⟩ := eof_token (@Reachable.init (runOf n '\n'))
  have heof := hiff.mpr hall
  refine ⟨Reachable.init, hall, heof, by rw [hcount], ?_⟩
  rw [(hpos heof).1, hcount]

/-- Counterexample to C17 as stated: on `2^31 - 1` newlines every character is
whitespace and the first call returns `EndOfFile`; the line of the offset
`length (source)` is `2^31` (one plus the number of newlines), and the line of
the token is `-2^31`. -/
theorem endOfInput_position_counterexample :
    Reachable (runOf 2147483647 '\n') (Lexer.new (runOf 2147483647 '\n')) ∧
    (∀ c ∈ (runOf 2147483647 '\n').drop (Lexer.new (runOf 2147483647 '\n')).pos,
      isspace c = true) ∧
    (Lexer.new (runOf 2147483647 '\n')).nextToken.1.type = TokenType.EndOfFile ∧
    1 + (runOf 2147483647 '\n').count '\n' = 2147483648 ∧
    (Lexer.new (runOf 2147483647 '\n')).nextToken.1.line = -2147483648 :=
  ⟨(runOf_newlines_call 2147483647).1,
    (runOf_newlines_call 2147483647).2.1,
    (runOf_newlines_call 2147483647).2.2.1,
    (runOf_newlines_call 2147483647).2.2.2.1.trans (by decide),
    (runOf_newlines_call 2147483647).2.2.2.2.trans wrapInt_two_pow_31⟩

/-- Claim C17, amended. `EndOfFile` is never returned early: in a reachable state
`nextToken` returns `EndOfFile` if and only if every character of the source at
or after the cursor is whitespace (none at all when the cursor is at the end);
then the text of the token is empty, its line and column are the `int` values
of the line and column of the offset `length (source)`, which are the line and
column themselves when the source is shorter than `2^31 - 1` characters, and
the cursor ends at `length (source)`. -/
theorem endOfInput_iff_only_whitespace (src : List Char) (l : Lexer) (hl : Reachable src l) :
    (l.nextToken.1.type = TokenType.EndOfFile ↔ ∀ c ∈ src.drop l.pos, isspace c = true) ∧
    (l.nextToken.1.type = TokenType.EndOfFile →
      l.nextToken.1 =
        { type := TokenType.EndOfFile,
          value := [],
          line := wrapInt ((1 + src.count '\n' : Nat) : Int),
          column := wrapInt ((1 + charsAfterLastNewline src : Nat) : Int) } ∧
      l.nextToken.2.pos = src.length ∧
      (src.length < 2147483647 →
        l.nextToken.1 =
          { type := TokenType.EndOfFile,
            value := [],
            line := ((1 + src.count '\n' : Nat) : Int),
            column := ((1 + charsAfterLastNewline src : Nat) : Int) })) := by
  obtain ⟨hiff, hpos⟩ := eof_token hl
  refine ⟨hiff, fun h => ⟨(hpos h).1, (hpos h).2, fun hlen => ?_⟩⟩
  have b1 : src.count '\n' ≤ src.length := List.count_le_length _ _
  have b2 : charsAfterLastNewline src ≤ src.reverse.length :=
    (List.takeWhile_prefix _).length_le
  rw [List.length_reverse] at b2
  have e1 : wrapInt ((1 + src.count '\n' : Nat) : Int) = ((1 + src.count '\n' : Nat) : Int) :=
    wrapInt_of_range (by omega) (by omega)
  have e2 : wrapInt ((1 + charsAfterLastNewline src : Nat) : Int) =
      ((1 + charsAfterLastNewline src : Nat) : Int) :=
    wrapInt_of_range (by omega) (by omega)
  rw [(hpos h).1, e1, e2]

/-- Witness for C17: in `"a\n  "` after the first call only whitespace is left;
the next token is `EndOfFile` at (2,3), the position of offset 4, and the
cursor ends at 4. -/
theorem endOfInput_iff_only_whitespace_witness :
    (lexerAfter "a\n  ".toList 1).pos = 1 ∧
    "a\n  ".toList.length < 2147483647 ∧
    (lexerAfter "a\n  ".toList 1).nextToken.2.pos = 4 ∧
    (lexerAfter "a\n  ".toList 1).nextToken.1 =
      { type := TokenType.EndOfFile, value := [], line := 2, column := 3 } :=
  ⟨by decide, by decide,
    ((endOfInput_iff_only_whitespace "a\n  ".toList _ (reachable_lexerAfter _ 1)).2
      (by decide)).2.1,
    ((endOfInput_iff_only_whitespace "a\n  ".toList _ (reachable_lexerAfter _ 1)).2
      (by decide)).2.2 (by decide)⟩

/-! ## Underscores -/

theorem prefix_of_prefix_all (q : Char → Bool) (xs p : List Char) (hp : p <+: xs)
    (hall : ∀ d ∈ p, q d = true) : p <+: xs.takeWhile q :=
  List.prefix_of_prefix_length_le hp (List.takeWhile_prefix q)
    (prefix_all_length_le q xs p hp hall)

/-- Claim C18. An underscore may continue an identifier but never start one.
When the first non-whitespace character at or after the cursor of a reachable
state is `_`, `nextToken` returns `Unknown "_"`, one character wide, at the
position of the underscore (as `int` values, which are the line and the column
themselves when the source is shorter than `2^31 - 1` characters; first part).
When it is a letter, every prefix of the input starting at that letter that is
made of letters, digits and underscores, so in particular one that ends in an
underscore, is part of the text of the token, which is `Let` only if the whole
text is `let` (second part).  `"_x"` is `Unknown "_"` at (1,1) then `Identifier "x"` at (1,2);
`"x_1"` and `"let_"` are single identifiers. -/
theorem underscore_continues_never_starts :
    (∀ (src : List Char) (l : Lexer), Reachable src l →
      ∀ s : Nat, FirstNonSpaceAt src l.pos s → src[s]? = some '_' →
        l.nextToken.1 =
          { type := TokenType.Unknown,
            value := ['_'],
            line := wrapInt ((1 + (src.take s).count '\n' : Nat) : Int),
            column := wrapInt ((1 + charsAfterLastNewline (src.take s) : Nat) : Int) } ∧
        (src.length < 2147483647 →
          l.nextToken.1 =
            { type := TokenType.Unknown,
              value := ['_'],
              line := ((1 + (src.take s).count '\n' : Nat) : Int),
              column := ((1 + charsAfterLastNewline (src.take s) : Nat) : Int) }) ∧
        l.nextToken.2.pos = s + 1) ∧
    (∀ (src : List Char) (l : Lexer), Reachable src l →
      ∀ s : Nat, FirstNonSpaceAt src l.pos s →
      ∀ c : Char, src[s]? = some c → isalpha c = true →
        (∀ p : List Char, p <+: src.drop s →
          (∀ d ∈ p, isalpha d = true ∨ isdigit d = true ∨ d = '_') →
          p <+: l.nextToken.1.value) ∧
        (l.nextToken.1.type = TokenType.Let ∨ l.nextToken.1.type = TokenType.Identifier) ∧
        (l.nextToken.1.type = TokenType.Let → l.nextToken.1.value = "let".toList)) ∧
    (List.range 3).map (tokenAt "_x".toList) =
      [{ type := TokenType.Unknown, value := "_".toList, line := 1, column := 1 },
       { type := TokenType.Identifier, value := "x".toList, line := 1, column := 2 },
       { type := TokenType.EndOfFile, value := [], line := 1, column := 3 }] ∧
    (List.range 2).map (tokenAt "x_1".toList) =
      [{ type := TokenType.Identifier, value := "x_1".toList, line := 1, column := 1 },
       { type := TokenType.EndOfFile, value := [], line := 1, column := 4 }] ∧
    (List.range 2).map (tokenAt "let_".toList) =
      [{ type := TokenType.Identifier, value := "let_".toList, line := 1, column := 1 },
       { type := TokenType.EndOfFile, value := [], line := 1, column := 5 }] := by
  refine ⟨?_, ?_, by decide, by decide, by decide⟩
  · intro src l hl s hs hc
    have hty : (if '_' = '+' then TokenType.Plus else if '_' = '=' then TokenType.Equal
        else if '_' = ';' then TokenType.Semicolon else TokenType.Unknown) =
        TokenType.Unknown := by decide
    rw [nextToken_single_char hl hs hc (by decide) (by decide), hty]
    refine ⟨rfl, fun hlen => ?_, rfl⟩
    obtain ⟨e1, e2, -⟩ := single_char_exact hc hlen
    rw [e1, e2]
  · intro src l hl s hs c hc ha
    have hrest := rest_skipWhitespace_of_first hl hs
    have hcons := drop_of_getElem? hc
    have hnt := nextToken_alpha (hrest.trans hcons) ha
    rw [identifier_eq, hrest] at hnt
    rw [hnt]
    dsimp only [String.toList]
    refine ⟨?_, ?_, ?_⟩
    · intro p hp hall
      exact prefix_of_prefix_all isIdentChar _ p hp
        (fun d hd => (isIdentChar_iff d).mpr (hall d hd))
    · split
      · exact Or.inl rfl
      · exact Or.inr rfl
    · intro h
      split at h
      · next hlet => exact hlet
      · cases h

/-- Witness for C18: in `"a _b_"` after the first call the first
non-whitespace character is `_` at offset 2, and the token is `Unknown "_"` at
column 3, one character wide. -/
theorem underscore_continues_never_starts_witness :
    (lexerAfter "a _b_".toList 1).pos = 1 ∧
    "a _b_".toList.length < 2147483647 ∧
    (lexerAfter "a _b_".toList 1).nextToken.1 =
      { type := TokenType.Unknown, value := ['_'], line := 1, column := 3 } ∧
    (lexerAfter "a _b_".toList 1).nextToken.2.pos = 3 :=
  ⟨by decide, by decide,
    (underscore_continues_never_starts.1 "a _b_".toList _ (reachable_lexerAfter _ 1) 2
      (by decide) (by decide)).2.1 (by decide),
    (underscore_continues_never_starts.1 "a _b_".toList _ (reachable_lexerAfter _ 1) 2
      (by decide) (by decide)).2.2⟩

end Stv
